import Mathlib

/-!
Verification of the structured-value extractor of SignalFlux
(`src/utils/json_utils.py`): the functions `extract_json` and
`_strip_comments`, together with models of the Python standard-library
routines they call (`json.loads`, `json.JSONDecoder.raw_decode`, the
specific `re.sub`/`re.search` patterns appearing in the source, and the
subset of `ast.literal_eval` exercised by the fallback path).

Machine integers do not occur; all scans are over `List Char`.  JSON
numbers are modelled exactly for integer literals; a numeric literal with
a fractional part, an exponent, or one of the special constants is kept
as an uninterpreted `floatLit` token (no claim depends on float values).
-/

namespace SignalFlux

/-- Backtick character (0x60), kept out of literals. -/
def btick : Char := Char.ofNat 96

/-- Apostrophe character (0x27), kept out of literals. -/
def squote : Char := Char.ofNat 39

/-- Whitespace skipped by the `json` module scanner: `[ \t\n\r]`. -/
def isJsonWs (c : Char) : Bool :=
  c = ' ' || c = '\t' || c = '\n' || c = '\r'

/-- ASCII whitespace of Python `str.strip` and of `\s` in the `re`
patterns of the source: `[ \t\n\r\f\v]`. -/
def isPyWs (c : Char) : Bool :=
  c = ' ' || c = '\t' || c = '\n' || c = '\r' || c = '\x0b' || c = '\x0c'

/-- `\w` of the `re` patterns: `[A-Za-z0-9_]`. -/
def isWordChar (c : Char) : Bool :=
  (('a' ≤ c && c ≤ 'z') || ('A' ≤ c && c ≤ 'Z') || c.isDigit || c = '_')

/-- `[a-zA-Z_]`, the first character of a key in the repair patterns. -/
def isAlphaUnd (c : Char) : Bool :=
  (('a' ≤ c && c ≤ 'z') || ('A' ≤ c && c ≤ 'Z') || c = '_')

/-- Python `str.strip()` (both ends, ASCII whitespace). -/
def trimPy (cs : List Char) : List Char :=
  ((cs.dropWhile isPyWs).reverse.dropWhile isPyWs).reverse

/-- The JSON value model of the extractor: the result tree of
`json.loads` / `ast.literal_eval` restricted to the shapes the claims
exercise.  `floatLit` keeps the raw text of a numeric literal that has a
fractional part, exponent, or is one of `NaN`/`Infinity`/`-Infinity`. -/
inductive Json where
  | null : Json
  | bool (b : Bool) : Json
  | num (n : Int) : Json
  | floatLit (raw : List Char) : Json
  | str (s : List Char) : Json
  | arr (elems : List Json) : Json
  | obj (members : List (List Char × Json)) : Json

/-- Hex digit value, for `\uXXXX` escapes. -/
def hexVal (c : Char) : Option Nat :=
  if '0' ≤ c && c ≤ '9' then some (c.toNat - 48)
  else if 'a' ≤ c && c ≤ 'f' then some (c.toNat - 87)
  else if 'A' ≤ c && c ≤ 'F' then some (c.toNat - 55)
  else none

/-- Body of a JSON string after the opening quote, per the strict
`json` scanner: escapes are decoded, raw control characters below
0x20 are rejected, everything else is copied.  The fuel argument only
serves structural recursion; every step consumes at least one input
character, so `length + 1` fuel always suffices. -/
def parseJStringF : Nat → List Char → Option (List Char × List Char)
  | 0, _ => none
  | fuel + 1, cs =>
    match cs with
    | [] => none
    | c :: rest =>
    if c = '"' then some ([], rest)
    else if c = '\\' then
      match rest with
      | [] => none
      | e :: r2 =>
        if e = '"' then (fun p => ('"' :: p.1, p.2)) <$> parseJStringF fuel r2
        else if e = '\\' then (fun p => ('\\' :: p.1, p.2)) <$> parseJStringF fuel r2
        else if e = '/' then (fun p => ('/' :: p.1, p.2)) <$> parseJStringF fuel r2
        else if e = 'b' then (fun p => ('\x08' :: p.1, p.2)) <$> parseJStringF fuel r2
        else if e = 'f' then (fun p => ('\x0c' :: p.1, p.2)) <$> parseJStringF fuel r2
        else if e = 'n' then (fun p => ('\n' :: p.1, p.2)) <$> parseJStringF fuel r2
        else if e = 'r' then (fun p => ('\r' :: p.1, p.2)) <$> parseJStringF fuel r2
        else if e = 't' then (fun p => ('\t' :: p.1, p.2)) <$> parseJStringF fuel r2
        else if e = 'u' then
          match r2 with
          | h1 :: h2 :: h3 :: h4 :: r3 =>
            match hexVal h1, hexVal h2, hexVal h3, hexVal h4 with
            | some a, some b, some c, some d =>
              (fun p => (Char.ofNat (((a * 16 + b) * 16 + c) * 16 + d) :: p.1, p.2))
                <$> parseJStringF fuel r3
            | _, _, _, _ => none
          | _ => none
        else none
    else if c.toNat < 32 then none
    else (fun p => (c :: p.1, p.2)) <$> parseJStringF fuel rest

/-- Body of a JSON string after the opening quote. -/
def parseJString (cs : List Char) : Option (List Char × List Char) :=
  parseJStringF (cs.length + 1) cs

/-- Value of a digit string (used only on all-digit lists). -/
def digitsVal (ds : List Char) : Nat :=
  ds.foldl (fun a c => a * 10 + (c.toNat - 48)) 0

/-- The integer part of the `json` number regex
`(-?(?:0|[1-9]\d*))(\.\d+)?([eE][-+]?\d+)?`: `0` stops immediately,
otherwise a nonzero digit followed by further digits. -/
def parseIntDigits : List Char → Option (List Char × List Char)
  | [] => none
  | c :: rest =>
    if c = '0' then some (['0'], rest)
    else if c.isDigit then
      some (c :: rest.takeWhile Char.isDigit, rest.dropWhile Char.isDigit)
    else none

/-- Fractional part `(\.\d+)?`: present only when a digit follows the dot. -/
def parseFracPart : List Char → Option (List Char × List Char)
  | '.' :: d :: rest =>
    if d.isDigit then
      some ('.' :: d :: rest.takeWhile Char.isDigit, rest.dropWhile Char.isDigit)
    else none
  | _ => none

/-- Exponent part `([eE][-+]?\d+)?`: present only when digits follow. -/
def parseExpPart : List Char → Option (List Char × List Char)
  | e :: rest =>
    if e = 'e' || e = 'E' then
      match rest with
      | s :: r2 =>
        if s = '+' || s = '-' then
          match r2 with
          | d :: r3 =>
            if d.isDigit then
              some (e :: s :: d :: r3.takeWhile Char.isDigit, r3.dropWhile Char.isDigit)
            else none
          | [] => none
        else if s.isDigit then
          some (e :: s :: r2.takeWhile Char.isDigit, r2.dropWhile Char.isDigit)
        else none
      | [] => none
    else none
  | [] => none

/-- The optional leading minus of the number regex. -/
def splitSign : List Char → Bool × List Char
  | '-' :: r => (true, r)
  | cs => (false, cs)

/-- The `(\.\d+)?` group together with its remainder (empty when the
group does not participate). -/
def fracOr (r1 : List Char) : List Char × List Char :=
  match parseFracPart r1 with
  | some (f, r) => (f, r)
  | none => ([], r1)

/-- The `([eE][-+]?\d+)?` group together with its remainder. -/
def expOr (r2 : List Char) : List Char × List Char :=
  match parseExpPart r2 with
  | some (e, r) => (e, r)
  | none => ([], r2)

/-- A JSON number per the scanner regex.  Integer matches produce
`Json.num`; a fractional part or exponent keeps the raw match. -/
def parseJNumber (cs : List Char) : Option (Json × List Char) :=
  match parseIntDigits (splitSign cs).2 with
  | none => none
  | some (ids, r1) =>
    if (fracOr r1).1.isEmpty && (expOr (fracOr r1).2).1.isEmpty then
      some (Json.num (if (splitSign cs).1 then -(Int.ofNat (digitsVal ids))
        else Int.ofNat (digitsVal ids)), (expOr (fracOr r1).2).2)
    else
      some (Json.floatLit ((if (splitSign cs).1 then ['-'] else []) ++ ids ++
        (fracOr r1).1 ++ (expOr (fracOr r1).2).1), (expOr (fracOr r1).2).2)

mutual

/-- One step of the strict `json` scanner (`py_scanner._scan_once`),
with explicit fuel.  Dispatch order and whitespace handling follow the
CPython pure-Python scanner; `NaN`/`Infinity`/`-Infinity` are accepted
after the number regex fails, as in the source. -/
def parseValue : Nat → List Char → Option (Json × List Char)
  | 0, _ => none
  | fuel + 1, cs =>
    match cs with
    | [] => none
    | c :: rest =>
      if c = '"' then (fun p => (Json.str p.1, p.2)) <$> parseJString rest
      else if c = '{' then parseObjBody fuel (rest.dropWhile isJsonWs)
      else if c = '[' then parseArrBody fuel (rest.dropWhile isJsonWs)
      else if ['n', 'u', 'l', 'l'].isPrefixOf (c :: rest) then some (Json.null, rest.drop 3)
      else if ['t', 'r', 'u', 'e'].isPrefixOf (c :: rest) then some (Json.bool true, rest.drop 3)
      else if ['f', 'a', 'l', 's', 'e'].isPrefixOf (c :: rest) then
        some (Json.bool false, rest.drop 4)
      else
        match parseJNumber (c :: rest) with
        | some r => some r
        | none =>
          if ['N', 'a', 'N'].isPrefixOf (c :: rest) then
            some (Json.floatLit ['N', 'a', 'N'], rest.drop 2)
          else if ['I', 'n', 'f', 'i', 'n', 'i', 't', 'y'].isPrefixOf (c :: rest) then
            some (Json.floatLit ['I', 'n', 'f'], rest.drop 7)
          else if ['-', 'I', 'n', 'f', 'i', 'n', 'i', 't', 'y'].isPrefixOf (c :: rest) then
            some (Json.floatLit ['-', 'I', 'n', 'f'], rest.drop 8)
          else none

/-- Object body after `{` and leading whitespace: `}` closes an empty
object, otherwise a `"`-delimited key must follow. -/
def parseObjBody : Nat → List Char → Option (Json × List Char)
  | 0, _ => none
  | fuel + 1, cs =>
    match cs with
    | [] => none
    | c :: rest =>
      if c = '}' then some (Json.obj [], rest)
      else (fun p => (Json.obj p.1, p.2)) <$> parseMembers fuel (c :: rest)

/-- One `"key": value` member followed by `,` (more members) or `}`. -/
def parseMembers : Nat → List Char → Option (List (List Char × Json) × List Char)
  | 0, _ => none
  | fuel + 1, cs =>
    match cs with
    | [] => none
    | c0 :: r0 =>
      if c0 = '"' then
        match parseJString r0 with
        | none => none
        | some (key, r1) =>
          match r1.dropWhile isJsonWs with
          | [] => none
          | c1 :: r2 =>
            if c1 = ':' then
              match parseValue fuel (r2.dropWhile isJsonWs) with
              | none => none
              | some (v, r3) =>
                match r3.dropWhile isJsonWs with
                | [] => none
                | c2 :: r4 =>
                  if c2 = '}' then some ([(key, v)], r4)
                  else if c2 = ',' then
                    (fun p => ((key, v) :: p.1, p.2)) <$>
                      parseMembers fuel (r4.dropWhile isJsonWs)
                  else none
            else none
      else none

/-- Array body after `[` and leading whitespace. -/
def parseArrBody : Nat → List Char → Option (Json × List Char)
  | 0, _ => none
  | fuel + 1, cs =>
    match cs with
    | [] => (fun p => (Json.arr p.1, p.2)) <$> parseElems fuel []
    | c :: rest =>
      if c = ']' then some (Json.arr [], rest)
      else (fun p => (Json.arr p.1, p.2)) <$> parseElems fuel (c :: rest)

/-- One array element followed by `,` (more elements) or `]`. -/
def parseElems : Nat → List Char → Option (List Json × List Char)
  | 0, _ => none
  | fuel + 1, cs =>
    match parseValue fuel cs with
    | none => none
    | some (v, r1) =>
      match r1.dropWhile isJsonWs with
      | [] => none
      | c1 :: r2 =>
        if c1 = ']' then some ([v], r2)
        else if c1 = ',' then
          (fun p => (v :: p.1, p.2)) <$> parseElems fuel (r2.dropWhile isJsonWs)
        else none

end

/-- `json.JSONDecoder.raw_decode` at index 0: parse one value starting
exactly at the first character (no leading-whitespace skip), returning
the value and the unconsumed remainder. -/
def rawDecode (cs : List Char) : Option (Json × List Char) :=
  parseValue (2 * cs.length + 2) cs

/-- `raw_decode` as used in the source, which ignores `end_pos`. -/
def rawDecodeFst (cs : List Char) : Option Json :=
  (fun p => p.1) <$> rawDecode cs

/-- `json.loads`: skip leading whitespace, decode one value, require
only whitespace afterwards. -/
def jsonLoads (cs : List Char) : Option Json :=
  match rawDecode (cs.dropWhile isJsonWs) with
  | some (v, rest) => if rest.dropWhile isJsonWs = [] then some v else none
  | none => none

/-! ### `_strip_comments` (json_utils.py lines 7-57)

A four-mode scan: mode 0 = outside strings, mode 1 = inside a
double-quoted string (with the escape flag), mode 2 = inside a `//`
comment, mode 3 = inside a `/* */` comment.  The Python loop keeps an
index; entering mode 2/3 corresponds to having consumed the two opening
characters. -/

def stripAux : Nat → Nat → Bool → List Char → List Char
  | 0, _, _, _ => []
  | fuel + 1, mode, e, cs =>
    match cs with
    | [] => []
    | c :: rest =>
      if mode = 1 then
        if c = '\\' then c :: stripAux fuel 1 (!e) rest
        else if c = '"' && !e then c :: stripAux fuel 0 e rest
        else c :: stripAux fuel 1 false rest
      else if mode = 2 then
        if c = '\n' then c :: stripAux fuel 0 e rest
        else stripAux fuel 2 e rest
      else if mode = 3 then
        if c = '*' && rest.head? = some '/' then stripAux fuel 0 e rest.tail
        else stripAux fuel 3 e rest
      else
        if c = '"' then c :: stripAux fuel 1 e rest
        else if c = '/' && rest.head? = some '/' then stripAux fuel 2 e rest.tail
        else if c = '/' && rest.head? = some '*' then stripAux fuel 3 e rest.tail
        else c :: stripAux fuel 0 e rest

/-- `_strip_comments`: remove `//` and `/* */` comments outside
double-quoted strings.  Every step of `stripAux` consumes at least one
character, so `length + 1` fuel always suffices. -/
def strip_comments (cs : List Char) : List Char :=
  stripAux (cs.length + 1) 0 false cs

/-! ### The `re.sub` repairs (json_utils.py lines 99-121, 158-159)

Each pattern is embedded as a match-at-position function plus a driver
that scans left to right, replacing non-overlapping matches and
resuming after each match, exactly as `re.sub` does.  The three key
repairs and the trailing-comma repair only ever match at a `{` or `,`
(resp. `,`), so their drivers attempt a match only there. -/

/-- Match `\s*([a-zA-Z_]\w*)\"\s*:` (the part of repair (b) after the
`[{,]` anchor); returns the replacement text after the anchor and the
remainder after the match. -/
def matchR1 (cs : List Char) : Option (List Char × List Char) :=
  let ws1 := cs.takeWhile isPyWs
  match cs.dropWhile isPyWs with
  | c :: rest =>
    if isAlphaUnd c then
      let wd := c :: rest.takeWhile isWordChar
      match rest.dropWhile isWordChar with
      | '"' :: r3 =>
        match r3.dropWhile isPyWs with
        | ':' :: r5 => some (ws1 ++ '"' :: wd ++ ['"', ':'], r5)
        | _ => none
      | _ => none
    else none
  | [] => none

/-- Match `\s*\"([a-zA-Z_]\w*)\s*:` (repair (c) after the anchor). -/
def matchR2 (cs : List Char) : Option (List Char × List Char) :=
  let ws1 := cs.takeWhile isPyWs
  match cs.dropWhile isPyWs with
  | '"' :: rest =>
    match rest with
    | c :: r2 =>
      if isAlphaUnd c then
        let wd := c :: r2.takeWhile isWordChar
        match (r2.dropWhile isWordChar).dropWhile isPyWs with
        | ':' :: r4 => some (ws1 ++ '"' :: wd ++ ['"', ':'], r4)
        | _ => none
      else none
    | [] => none
  | _ => none

/-- Match `\s*([a-zA-Z_]\w*)\s*:` (repair (d) after the anchor). -/
def matchR3 (cs : List Char) : Option (List Char × List Char) :=
  let ws1 := cs.takeWhile isPyWs
  match cs.dropWhile isPyWs with
  | c :: rest =>
    if isAlphaUnd c then
      let wd := c :: rest.takeWhile isWordChar
      match (rest.dropWhile isWordChar).dropWhile isPyWs with
      | ':' :: r4 => some (ws1 ++ '"' :: wd ++ ['"', ':'], r4)
      | _ => none
    else none
  | [] => none

/-- Match `\s*([\]}])` (trailing-comma repair after the `,` anchor). -/
def matchR4 (cs : List Char) : Option (Char × List Char) :=
  match cs.dropWhile isPyWs with
  | b :: r2 => if b = ']' || b = '}' then some (b, r2) else none
  | [] => none

/-- Driver for repair (b):
`re.sub(r'([\{\,]\s*)([a-zA-Z_]\w*)\"\s*:', r'\1"\2":', s)`. -/
def subR1F : Nat → List Char → List Char
  | 0, cs => cs
  | fuel + 1, cs =>
    match cs with
    | [] => []
    | c :: rest =>
      if c = '{' || c = ',' then
        match matchR1 rest with
        | some (out, r) => c :: (out ++ subR1F fuel r)
        | none => c :: subR1F fuel rest
      else c :: subR1F fuel rest

/-- Repair (b).  Each driver step consumes at least one character, so
`length + 1` fuel always suffices. -/
def subR1 (cs : List Char) : List Char :=
  subR1F (cs.length + 1) cs

/-- Driver for repair (c):
`re.sub(r'([\{\,]\s*)\"([a-zA-Z_]\w*)\s*:', r'\1"\2":', s)`. -/
def subR2F : Nat → List Char → List Char
  | 0, cs => cs
  | fuel + 1, cs =>
    match cs with
    | [] => []
    | c :: rest =>
      if c = '{' || c = ',' then
        match matchR2 rest with
        | some (out, r) => c :: (out ++ subR2F fuel r)
        | none => c :: subR2F fuel rest
      else c :: subR2F fuel rest

/-- Repair (c). -/
def subR2 (cs : List Char) : List Char :=
  subR2F (cs.length + 1) cs

/-- Driver for repair (d):
`re.sub(r'([\{\,]\s*)([a-zA-Z_]\w*)\s*:', r'\1"\2":', s)`. -/
def subR3F : Nat → List Char → List Char
  | 0, cs => cs
  | fuel + 1, cs =>
    match cs with
    | [] => []
    | c :: rest =>
      if c = '{' || c = ',' then
        match matchR3 rest with
        | some (out, r) => c :: (out ++ subR3F fuel r)
        | none => c :: subR3F fuel rest
      else c :: subR3F fuel rest

/-- Repair (d). -/
def subR3 (cs : List Char) : List Char :=
  subR3F (cs.length + 1) cs

/-- Driver for the trailing-comma repair:
`re.sub(r',\s*([\]}])', r'\1', s)`. -/
def subR4F : Nat → List Char → List Char
  | 0, cs => cs
  | fuel + 1, cs =>
    match cs with
    | [] => []
    | c :: rest =>
      if c = ',' then
        match matchR4 rest with
        | some (b, r) => b :: subR4F fuel r
        | none => c :: subR4F fuel rest
      else c :: subR4F fuel rest

/-- Trailing-comma repair. -/
def subR4 (cs : List Char) : List Char :=
  subR4F (cs.length + 1) cs

/-- Content of `'(.*?)':` after the opening apostrophe: the shortest
newline-free stretch whose closing apostrophe is followed by `:`. -/
def matchR5 : List Char → Option (List Char × List Char)
  | [] => none
  | c :: rest =>
    if c = '\n' then none
    else if c = squote then
      match rest with
      | ':' :: r2 => some ([], r2)
      | _ => (fun p => (c :: p.1, p.2)) <$> matchR5 rest
    else (fun p => (c :: p.1, p.2)) <$> matchR5 rest

/-- Driver for the quote-style key repair:
`re.sub(r"'(.*?)':", r'"\1":', s)` (json_utils.py line 158). -/
def subR5F : Nat → List Char → List Char
  | 0, cs => cs
  | fuel + 1, cs =>
    match cs with
    | [] => []
    | c :: rest =>
      if c = squote then
        match matchR5 rest with
        | some (content, r) => '"' :: (content ++ '"' :: ':' :: subR5F fuel r)
        | none => c :: subR5F fuel rest
      else c :: subR5F fuel rest

/-- Quote-style key repair. -/
def subR5 (cs : List Char) : List Char :=
  subR5F (cs.length + 1) cs

/-- Content up to the next apostrophe (the lazy `(.*?)'` of the value
repair), failing on a newline. -/
def scanSq : List Char → Option (List Char × List Char)
  | [] => none
  | c :: rest =>
    if c = squote then some ([], rest)
    else if c = '\n' then none
    else (fun p => (c :: p.1, p.2)) <$> scanSq rest

/-- Match `\s*'(.*?)'` after the `:` anchor of the value repair;
returns the full replacement `: "content"` and the remainder. -/
def matchR6 (cs : List Char) : Option (List Char × List Char) :=
  match cs.dropWhile isPyWs with
  | q :: r2 =>
    if q = squote then
      (fun p => (':' :: ' ' :: '"' :: (p.1 ++ ['"']), p.2)) <$> scanSq r2
    else none
  | [] => none

/-- Driver for the quote-style value repair:
`re.sub(r":\s*'(.*?)'", r': "\1"', s)` (json_utils.py line 159). -/
def subR6F : Nat → List Char → List Char
  | 0, cs => cs
  | fuel + 1, cs =>
    match cs with
    | [] => []
    | c :: rest =>
      if c = ':' then
        match matchR6 rest with
        | some (out, r) => out ++ subR6F fuel r
        | none => c :: subR6F fuel rest
      else c :: subR6F fuel rest

/-- Quote-style value repair. -/
def subR6 (cs : List Char) : List Char :=
  subR6F (cs.length + 1) cs

/-! ### The markdown-fence handling (json_utils.py lines 76-82) -/

/-- The three-backtick fence marker. -/
def ticks : List Char := [btick, btick, btick]

/-- The lazy group of `` ```(?:json)?\s*\n?(.*?)\n?``` ``: the shortest
prefix such that what follows, after an optional newline, starts with
``` (the closing fence).  `none` when no closing fence exists. -/
def fenceContent : List Char → Option (List Char)
  | [] => none
  | c :: rest =>
    if c = '\n' && ticks.isPrefixOf rest then some []
    else if ticks.isPrefixOf (c :: rest) then some []
    else (fun t => c :: t) <$> fenceContent rest

/-- `re.search` of the fence pattern with `re.DOTALL`: try each start
position left to right; at a position opening with ```, consume an
optional `json` tag and any whitespace, then find the lazy content. -/
def mdSearch : List Char → Option (List Char)
  | [] => none
  | c :: rest =>
    if ticks.isPrefixOf (c :: rest) then
      let a1 := rest.drop 2
      let a2 := if ['j', 's', 'o', 'n'].isPrefixOf a1 then a1.drop 4 else a1
      match fenceContent (a2.dropWhile isPyWs) with
      | some content => some content
      | none => mdSearch rest
    else mdSearch rest

/-- Fallback strip of a leading fence: `re.sub(r'^```[a-z]*\n?', '', s)`. -/
def subFenceStart (cs : List Char) : List Char :=
  if ticks.isPrefixOf cs then
    match ((cs.drop 3).dropWhile fun c => 'a' ≤ c && c ≤ 'z') with
    | '\n' :: r2 => r2
    | r => r
  else cs

/-- Does `cs` consist of ``` followed only by whitespace? -/
def tailTicksWs (cs : List Char) : Bool :=
  ticks.isPrefixOf cs && (cs.drop 3).all isPyWs

/-- Fallback strip of a trailing fence: `re.sub(r'\n?```\s*$', '', s)`
(leftmost occurrence of an optional newline, ```, then only whitespace
to the end of the string). -/
def subFenceEnd : List Char → List Char
  | [] => []
  | c :: rest =>
    if c = '\n' && tailTicksWs rest then []
    else if tailTicksWs (c :: rest) then []
    else c :: subFenceEnd rest

/-! ### `fix_multiline_strings` (json_utils.py lines 131-148) -/

/-- Split on newline characters, Python `str.split('\n')`. -/
def splitNl : List Char → List (List Char)
  | [] => [[]]
  | c :: rest =>
    if c = '\n' then [] :: splitNl rest
    else
      match splitNl rest with
      | l :: ls => (c :: l) :: ls
      | [] => [[c]]

/-- `'\n'.join`. -/
def joinNl (ls : List (List Char)) : List Char :=
  (ls.intersperse ['\n']).flatten

/-- Count of `"` characters, Python `line.count('"')`. -/
def countQ (cs : List Char) : Nat :=
  cs.count '"'

/-- Non-overlapping count of the two-character sequence `\"`,
Python `line.count('\\"')`. -/
def countEscQ : List Char → Nat
  | '\\' :: '"' :: rest => 1 + countEscQ rest
  | _ :: rest => countEscQ rest
  | [] => 0

/-- The line-joining loop of `fix_multiline_strings`: lines are emitted
in reverse; while the quote parity says a string is open, the stripped
next line is appended to the previous one with a single space. -/
def fmAux : Bool → List (List Char) → List (List Char) → List (List Char)
  | _, acc, [] => acc.reverse
  | inS, acc, l :: ls =>
    let acc' :=
      if inS then
        match acc with
        | last :: restAcc => (last ++ ' ' :: trimPy l) :: restAcc
        | [] => []
      else l :: acc
    let q := countQ l - countEscQ l
    fmAux (if q % 2 = 1 then !inS else inS) acc' ls

/-- `fix_multiline_strings` (json_utils.py lines 131-148). -/
def fixMultiline (cs : List Char) : List Char :=
  joinNl (fmAux false [] (splitNl cs))

/-! ### The balanced-region fallback (json_utils.py lines 167-174) -/

/-- The brace scan of the `ast` fallback: push on `{`, pop on `}` (a
pop on an empty stack is a no-op), and return the prefix up to the
first `}` that leaves the stack empty.  Note: this scan inspects every
character with no regard to string literals. -/
def balAux : List Char → Nat → List Char → Option (List Char)
  | [], _, _ => none
  | c :: rest, depth, acc =>
    if c = '{' then balAux rest (depth + 1) (c :: acc)
    else if c = '}' then
      if depth - 1 = 0 then some (c :: acc).reverse
      else balAux rest (depth - 1) (c :: acc)
    else balAux rest depth (c :: acc)

/-- The region handed to `ast.literal_eval` by the fallback. -/
def balancedRegion (cs : List Char) : Option (List Char) :=
  balAux cs 0 []

/-- Modelled from the spec (§4.6 with the string-awareness of §4.3):
the balanced-region scan as the specification describes it, ignoring
brace characters that occur inside double-quoted string literals.
This definition follows the spec's words and exists only to be compared
with `balancedRegion` above. -/
def balAwareAux : List Char → Bool → Bool → Nat → List Char → Option (List Char)
  | [], _, _, _, _ => none
  | c :: rest, inStr, esc, depth, acc =>
    if inStr then
      if c = '\\' then balAwareAux rest true (!esc) depth (c :: acc)
      else if c = '"' && !esc then balAwareAux rest false esc depth (c :: acc)
      else balAwareAux rest true false depth (c :: acc)
    else if c = '"' then balAwareAux rest true esc depth (c :: acc)
    else if c = '{' then balAwareAux rest false esc (depth + 1) (c :: acc)
    else if c = '}' then
      if depth - 1 = 0 then some (c :: acc).reverse
      else balAwareAux rest false esc (depth - 1) (c :: acc)
    else balAwareAux rest false esc depth (c :: acc)

/-- Modelled from the spec: string-aware variant of `balancedRegion`. -/
def balancedRegionAware (cs : List Char) : Option (List Char) :=
  balAwareAux cs false false 0 []

/-! ### The `ast.literal_eval` subset (json_utils.py line 174)

Model of `ast.literal_eval` on the Python-literal shapes the fallback
can meet in this development: dicts and lists (with optional trailing
comma), single- or double-quoted one-line strings with the common
escapes, decimal integers, `True`/`False`/`None`.  Tuples, floats,
string concatenation, bytes and comments are outside the modelled
subset (no input considered below contains them); on such inputs the
model fails where Python may succeed, which only ever makes the model
of the fallback fail more often. -/

/-- Tokenizer whitespace between literal tokens (inside brackets). -/
def astWs (c : Char) : Bool :=
  c = ' ' || c = '\t' || c = '\n' || c = '\r' || c = '\x0c'

/-- Body of a Python string literal delimited by `q` (fuel-driven;
each step consumes at least one character). -/
def parseAstStringF (q : Char) : Nat → List Char → Option (List Char × List Char)
  | 0, _ => none
  | fuel + 1, cs =>
    match cs with
    | [] => none
    | c :: rest =>
    if c = q then some ([], rest)
    else if c = '\n' then none
    else if c = '\\' then
      match rest with
      | [] => none
      | e :: r2 =>
        if e = '\n' then parseAstStringF q fuel r2
        else
          let mapped : Option Char :=
            if e = 'n' then some '\n'
            else if e = 't' then some '\t'
            else if e = 'r' then some '\r'
            else if e = '\\' then some '\\'
            else if e = squote then some squote
            else if e = '"' then some '"'
            else if e = 'b' then some '\x08'
            else if e = 'f' then some '\x0c'
            else if e = 'v' then some '\x0b'
            else if e = 'a' then some '\x07'
            else if e = '0' then some '\x00'
            else none
          match mapped with
          | some ch => (fun p => (ch :: p.1, p.2)) <$> parseAstStringF q fuel r2
          | none => (fun p => ('\\' :: e :: p.1, p.2)) <$> parseAstStringF q fuel r2
    else (fun p => (c :: p.1, p.2)) <$> parseAstStringF q fuel rest

/-- Body of a Python string literal delimited by `q`. -/
def parseAstString (q : Char) (cs : List Char) : Option (List Char × List Char) :=
  parseAstStringF q (cs.length + 1) cs

/-- A Python decimal integer literal: digits, with a leading zero
permitted only when every digit is zero. -/
def parseAstInt (cs : List Char) : Option (Int × List Char) :=
  match cs with
  | c :: _ =>
    if c.isDigit then
      let ds := cs.takeWhile Char.isDigit
      let rest := cs.dropWhile Char.isDigit
      if c = '0' && !(ds.all fun d => d = '0') then none
      else some (Int.ofNat (digitsVal ds), rest)
    else none
  | [] => none

/-- Is the named constant terminated here (next char not a word char)? -/
def nameEnds : List Char → Bool
  | [] => true
  | c :: _ => !(isWordChar c)

mutual

/-- One Python literal (the modelled subset). -/
def parseAstValue : Nat → List Char → Option (Json × List Char)
  | 0, _ => none
  | fuel + 1, cs =>
    match cs with
    | [] => none
    | c :: rest =>
      if c = '"' || c = squote then
        (fun p => (Json.str p.1, p.2)) <$> parseAstString c rest
      else if c = '{' then parseAstDict fuel (rest.dropWhile astWs)
      else if c = '[' then parseAstList fuel (rest.dropWhile astWs)
      else if ['T', 'r', 'u', 'e'].isPrefixOf cs && nameEnds (cs.drop 4) then
        some (Json.bool true, cs.drop 4)
      else if ['F', 'a', 'l', 's', 'e'].isPrefixOf cs && nameEnds (cs.drop 5) then
        some (Json.bool false, cs.drop 5)
      else if ['N', 'o', 'n', 'e'].isPrefixOf cs && nameEnds (cs.drop 4) then
        some (Json.null, cs.drop 4)
      else if c = '-' then
        match parseAstInt (rest.dropWhile astWs) with
        | some (n, r) => some (Json.num (-n), r)
        | none => none
      else
        match parseAstInt cs with
        | some (n, r) => some (Json.num n, r)
        | none => none

/-- Dict body after `{` and whitespace. -/
def parseAstDict : Nat → List Char → Option (Json × List Char)
  | 0, _ => none
  | fuel + 1, cs =>
    match cs with
    | '}' :: rest => some (Json.obj [], rest)
    | _ => (fun p => (Json.obj p.1, p.2)) <$> parseAstMembers fuel cs

/-- One `key: value` dict entry; keys must be strings in the modelled
subset.  A `,` may be a separator or trailing before `}`. -/
def parseAstMembers : Nat → List Char → Option (List (List Char × Json) × List Char)
  | 0, _ => none
  | fuel + 1, cs =>
    match parseAstValue fuel cs with
    | some (Json.str key, r1) =>
      match r1.dropWhile astWs with
      | ':' :: r2 =>
        match parseAstValue fuel (r2.dropWhile astWs) with
        | none => none
        | some (v, r3) =>
          match r3.dropWhile astWs with
          | '}' :: r4 => some ([(key, v)], r4)
          | ',' :: r4 =>
            match r4.dropWhile astWs with
            | '}' :: r5 => some ([(key, v)], r5)
            | r5 => (fun p => ((key, v) :: p.1, p.2)) <$> parseAstMembers fuel r5
          | _ => none
      | _ => none
    | _ => none

/-- List body after `[` and whitespace. -/
def parseAstList : Nat → List Char → Option (Json × List Char)
  | 0, _ => none
  | fuel + 1, cs =>
    match cs with
    | ']' :: rest => some (Json.arr [], rest)
    | _ => (fun p => (Json.arr p.1, p.2)) <$> parseAstElems fuel cs

/-- One list element; a `,` may be a separator or trailing before `]`. -/
def parseAstElems : Nat → List Char → Option (List Json × List Char)
  | 0, _ => none
  | fuel + 1, cs =>
    match parseAstValue fuel cs with
    | none => none
    | some (v, r1) =>
      match r1.dropWhile astWs with
      | ']' :: r2 => some ([v], r2)
      | ',' :: r2 =>
        match r2.dropWhile astWs with
        | ']' :: r3 => some ([v], r3)
        | r3 => (fun p => (v :: p.1, p.2)) <$> parseAstElems fuel r3
      | _ => none

end

/-- `ast.literal_eval` on the modelled subset: whitespace around a
single literal expression, which must consume the whole string. -/
def astLiteralEval (cs : List Char) : Option Json :=
  match parseAstValue (2 * cs.length + 2) (cs.dropWhile astWs) with
  | some (v, rest) => if rest.dropWhile astWs = [] then some v else none
  | none => none

/-! ### `extract_json` (json_utils.py lines 59-180) -/

/-- The markdown handling of step 1: `strip`, then the fence search,
then the one-sided fallback subs when the text opens with ``` but the
search found no complete fence. -/
def fenceStage (cs : List Char) : List Char :=
  let t1 := trimPy cs
  match mdSearch t1 with
  | some g => trimPy g
  | none =>
    if ticks.isPrefixOf t1 then subFenceEnd (subFenceStart t1) else t1

/-- Step 2's choice of start index: the first `{` unless a `[` comes
strictly earlier (source line 91). -/
def chooseStart : Option Nat → Option Nat → Option Nat
  | none, none => none
  | some b, none => some b
  | none, some k => some k
  | some b, some k => some (if b < k then b else k)

/-- The candidate of step 2.5 after comment stripping and the three
unconditional key repairs (source lines 94-108). -/
def preprocessed (cs : List Char) : List Char :=
  subR3 (subR2 (subR1 (strip_comments cs)))

/-- `extract_json` on the character list of the input string: the
full pipeline of json_utils.py lines 59-180. -/
def extractJsonCore (cs0 : List Char) : Option Json :=
  if cs0.isEmpty then none
  else
    let t2 := fenceStage cs0
    match chooseStart (t2.findIdx? fun c => c = '{') (t2.findIdx? fun c => c = '[') with
    | none => none
    | some i =>
      let potential := preprocessed (trimPy (t2.drop i))
      match jsonLoads potential with
      | some v => some v
      | none =>
        let processed := subR4 potential
        match rawDecodeFst processed with
        | some v => some v
        | none =>
          match rawDecodeFst (fixMultiline processed) with
          | some v => some v
          | none =>
            match rawDecodeFst (subR6 (subR5 processed)) with
            | some v => some v
            | none =>
              match balancedRegion potential with
              | some content => astLiteralEval content
              | none => none

/-- `extract_json` (json_utils.py line 59). -/
def extract_json (s : String) : Option Json :=
  extractJsonCore s.data

/-! ### `json.dumps` (default settings), used by the round-trip claims -/

/-- Decimal digits of a natural number (fuel-driven; the quotient
shrinks at every step, so `n + 1` fuel always suffices). -/
def natReprF : Nat → Nat → List Char
  | 0, _ => []
  | fuel + 1, n =>
    if n < 10 then [Char.ofNat (48 + n)]
    else natReprF fuel (n / 10) ++ [Char.ofNat (48 + n % 10)]

/-- Decimal digits of a natural number. -/
def natRepr (n : Nat) : List Char :=
  natReprF (n + 1) n

/-- Python `repr` of an integer. -/
def intRepr (i : Int) : List Char :=
  if i < 0 then '-' :: natRepr i.natAbs else natRepr i.natAbs

/-- Lowercase hex digit. -/
def hexDig (d : Nat) : Char :=
  if d < 10 then Char.ofNat (48 + d) else Char.ofNat (87 + d)

/-- Four-digit hex, as in a `\uXXXX` escape. -/
def hex4 (n : Nat) : List Char :=
  [hexDig (n / 4096 % 16), hexDig (n / 256 % 16), hexDig (n / 16 % 16), hexDig (n % 16)]

/-- `json.dumps` escaping of one character (`ensure_ascii` default):
characters outside the printable ASCII range become `\uXXXX` escapes
(astral characters, absent from every value considered here, would
need surrogate pairs). -/
def escChar (c : Char) : List Char :=
  if c = '"' then ['\\', '"']
  else if c = '\\' then ['\\', '\\']
  else if c = '\n' then ['\\', 'n']
  else if c = '\t' then ['\\', 't']
  else if c = '\r' then ['\\', 'r']
  else if c = '\x08' then ['\\', 'b']
  else if c = '\x0c' then ['\\', 'f']
  else if c.toNat < 32 || 126 < c.toNat then '\\' :: 'u' :: hex4 c.toNat
  else [c]

/-- `json.dumps` of a string. -/
def dumpsStr (s : List Char) : List Char :=
  '"' :: (s.map escChar).flatten ++ ['"']

mutual

/-- `json.dumps` with the default separators `', '` and `': '`. -/
def dumpsVal : Json → List Char
  | .null => ("null").data
  | .bool true => ("true").data
  | .bool false => ("false").data
  | .num n => intRepr n
  | .floatLit raw => raw
  | .str s => dumpsStr s
  | .arr xs => '[' :: dumpsElems xs ++ [']']
  | .obj kvs => '{' :: dumpsMembers kvs ++ ['}']

/-- `', '`-separated array elements. -/
def dumpsElems : List Json → List Char
  | [] => []
  | [x] => dumpsVal x
  | x :: xs => dumpsVal x ++ ',' :: ' ' :: dumpsElems xs

/-- `', '`-separated `"key": value` members. -/
def dumpsMembers : List (List Char × Json) → List Char
  | [] => []
  | [(k, v)] => dumpsStr k ++ ':' :: ' ' :: dumpsVal v
  | (k, v) :: kvs => dumpsStr k ++ ':' :: ' ' :: dumpsVal v ++ ',' :: ' ' :: dumpsMembers kvs

end

/-- The in-string scan of `_strip_comments` viewed on a string body:
`some e` when the scan stays inside the string with final escape flag
`e`, `none` when an unescaped `"` ends the string inside the body. -/
def stringMode : Bool → List Char → Option Bool
  | e, [] => some e
  | e, c :: rest =>
    if c = '\\' then stringMode (!e) rest
    else if c = '"' && !e then none
    else stringMode false rest

/-- Saturating brace depth: `+1` on every `{`, truncated `-1` on every
`}`, over all characters of the list alike. -/
def braceDepth (d : Nat) (cs : List Char) : Nat :=
  cs.foldl (fun acc c => if c = '{' then acc + 1 else if c = '}' then acc - 1 else acc) d

/-- Characters that never extend a preceding JSON token: the
separators and closers that follow a serialized value. -/
def headSafe : List Char → Bool
  | [] => true
  | c :: _ => c = ',' || c = ']' || c = '}' || c = ' '

/-! ## Theorems -/

/-- C1: for every input string, `extract_json` either returns a
structured value or returns `none`; every parse failure inside the
cascade is represented as an `Option`/failure value consumed by the
next stage, so no exception reaches the caller.  (Resource-exhaustion
conditions such as interpreter recursion limits are outside the
embedding.) -/
theorem claim_C1 : ∀ s : String, (∃ v, extract_json s = some v) ∨ extract_json s = none := by
  intro s
  cases h : extract_json s with
  | none => exact Or.inr rfl
  | some v => exact Or.inl ⟨v, rfl⟩

/-- C10: on the empty string the emptiness guard returns `none`
immediately. -/
theorem claim_C10 : extract_json ("") = none := rfl

/-- C9: `extract_json` is a pure function of its input string: equal
inputs give equal results, and the embedding (a function with no state)
has no cross-call memory. -/
theorem claim_C9 : ∀ s t : String, s = t → extract_json s = extract_json t := by
  intro s t h
  rw [h]

theorem claim_C9_witness : extract_json ("\x7b\"a\": 1\x7d") = extract_json ("\x7b\"a\": 1\x7d") :=
  claim_C9 ("\x7b\"a\": 1\x7d") ("\x7b\"a\": 1\x7d") rfl

theorem findIdx_none_of_not_mem {c : Char} {l : List Char}
    (h : c ∉ l) : l.findIdx? (fun x => x = c) = none := by
  rw [List.findIdx?_eq_none_iff]
  intro x hx
  by_cases he : x = c
  · exact absurd (he ▸ hx) h
  · simpa using he

/-- C7: when the fence-stripped text contains neither `{` nor `[`, the
locator fails and `extract_json` returns `none` without reaching the
comment-stripping, repair, parsing, or fallback stages. -/
theorem claim_C7 :
    ∀ s : String, '{' ∉ fenceStage s.data → '[' ∉ fenceStage s.data →
      extract_json s = none := by
  intro s h1 h2
  unfold extract_json extractJsonCore
  by_cases he : s.data.isEmpty
  · simp [he]
  · simp only [he, Bool.false_eq_true, if_false]
    rw [findIdx_none_of_not_mem h1, findIdx_none_of_not_mem h2]
    rfl

theorem claim_C7_witness : extract_json ("no json here at all") = none :=
  claim_C7 ("no json here at all") (by decide) (by decide)

/-- C2: the source applies comment stripping and the three key-quoting
repairs to the candidate before the first parse attempt (json_utils.py
lines 97-108 precede line 115), although the comment above line 115
says the first attempt parses without any preprocessing.  On the valid
JSON input `{"x": "a, b: c"}` the bare-key repair fires inside the
string value, corrupting the candidate: `extract_json` returns `none`,
whereas the strict parse of the comment-stripped candidate that the
claim (and the code's own comment) describes succeeds. -/
theorem claim_C2 :
    extract_json ("\x7b\"x\": \"a, b: c\"\x7d") = none ∧
    jsonLoads (strip_comments (("\x7b\"x\": \"a, b: c\"\x7d").data)) =
      some (Json.obj [(("x").data, Json.str ("a, b: c").data)]) ∧
    preprocessed (("\x7b\"x\": \"a, b: c\"\x7d").data) = ("\x7b\"x\": \"a, \"b\": c\"\x7d").data :=
  ⟨rfl, rfl, rfl⟩

/-- C6 counterexample: this text is the concatenation of two disjoint
complete JSON objects separated by a space — both parse strictly on
their own — yet `extract_json` returns `none` rather than the first
object, because the bare-key repair corrupts the first object before
any parse attempt. -/
theorem claim_C6_counterexample :
    ("\x7b\"x\": \"a, b: c\"\x7d \x7b\"y\": 2\x7d") = ("\x7b\"x\": \"a, b: c\"\x7d") ++ (" ") ++ ("\x7b\"y\": 2\x7d") ∧
    jsonLoads (("\x7b\"x\": \"a, b: c\"\x7d").data) =
      some (Json.obj [(("x").data, Json.str ("a, b: c").data)]) ∧
    jsonLoads (("\x7b\"y\": 2\x7d").data) = some (Json.obj [(("y").data, Json.num 2)]) ∧
    extract_json ("\x7b\"x\": \"a, b: c\"\x7d \x7b\"y\": 2\x7d") = none :=
  ⟨rfl, rfl, rfl, rfl⟩

/-- C8 counterexample: for the structured value `{"a": "```"}` —
whose `json.dumps` serialization is `{"a": "```"}` — wrapping the
serialization in a markdown fence makes the non-greedy fence pattern
close at the backticks inside the string value; extraction fails
entirely instead of returning the value. -/
theorem claim_C8_counterexample :
    dumpsVal (Json.obj [(("a").data, Json.str ("```").data)]) = ("\x7b\"a\": \"```\"\x7d").data ∧
    extract_json ("```json\n" ++ "\x7b\"a\": \"```\"\x7d" ++ "\n```") = none ∧
    (none : Option Json) ≠ some (Json.obj [(("a").data, Json.str ("```").data)]) :=
  ⟨rfl, rfl, nofun⟩

/-- C4 counterexample: the first parse attempt of the cascade is
`json.loads` (line 115), a whole-document parse: on `{"a": 1} x` the
complete first value parses but trailing prose makes that attempt fail,
while `raw_decode` (used only from attempt 2 on) prefix-decodes it.
Observable consequence: on `{"a": ", }"} tail` the strict first attempt
fails, the trailing-comma repair then corrupts the string value, and
the extractor returns the corrupted `{"a": "}"}`. -/
theorem claim_C4_counterexample :
    jsonLoads (("\x7b\"a\": 1\x7d").data) = some (Json.obj [(("a").data, Json.num 1)]) ∧
    jsonLoads (("\x7b\"a\": 1\x7d x").data) = none ∧
    rawDecode (("\x7b\"a\": 1\x7d x").data) = some (Json.obj [(("a").data, Json.num 1)], (" x").data) ∧
    extract_json ("\x7b\"a\": \", \x7d\"\x7d tail") = some (Json.obj [(("a").data, Json.str ("\x7d").data)]) :=
  ⟨rfl, rfl, rfl, rfl⟩

theorem append_suffix_step {cs r1 r2 : List Char} (p1 : List Char)
    (h1 : cs = p1 ++ r1) (h2 : ∃ p, r1 = p ++ r2) : ∃ p, cs = p ++ r2 := by
  obtain ⟨p2, hp⟩ := h2
  exact ⟨p1 ++ p2, by rw [h1, hp, List.append_assoc]⟩

theorem dropWhile_suffix (p : Char → Bool) (l : List Char) :
    ∃ pre, l = pre ++ l.dropWhile p :=
  ⟨l.takeWhile p, (List.takeWhile_append_dropWhile p l).symm⟩

theorem drop_suffix (n : Nat) (l : List Char) : ∃ pre, l = pre ++ l.drop n :=
  ⟨l.take n, (List.take_append_drop n l).symm⟩

theorem parseJStringF_step (fuel : Nat) (c : Char) (rest : List Char) :
    parseJStringF (fuel + 1) (c :: rest) =
      (if c = '"' then some ([], rest)
       else if c = '\\' then
         match rest with
         | [] => none
         | e :: r2 =>
           if e = '"' then (fun p => ('"' :: p.1, p.2)) <$> parseJStringF fuel r2
           else if e = '\\' then (fun p => ('\\' :: p.1, p.2)) <$> parseJStringF fuel r2
           else if e = '/' then (fun p => ('/' :: p.1, p.2)) <$> parseJStringF fuel r2
           else if e = 'b' then (fun p => ('\x08' :: p.1, p.2)) <$> parseJStringF fuel r2
           else if e = 'f' then (fun p => ('\x0c' :: p.1, p.2)) <$> parseJStringF fuel r2
           else if e = 'n' then (fun p => ('\n' :: p.1, p.2)) <$> parseJStringF fuel r2
           else if e = 'r' then (fun p => ('\r' :: p.1, p.2)) <$> parseJStringF fuel r2
           else if e = 't' then (fun p => ('\t' :: p.1, p.2)) <$> parseJStringF fuel r2
           else if e = 'u' then
             match r2 with
             | h1 :: h2 :: h3 :: h4 :: r3 =>
               match hexVal h1, hexVal h2, hexVal h3, hexVal h4 with
               | some a, some b, some cc, some d =>
                 (fun p => (Char.ofNat (((a * 16 + b) * 16 + cc) * 16 + d) :: p.1, p.2))
                   <$> parseJStringF fuel r3
               | _, _, _, _ => none
             | _ => none
           else none
       else if c.toNat < 32 then none
       else (fun p => (c :: p.1, p.2)) <$> parseJStringF fuel rest) := rfl

theorem parseJStringF_esc (fuel : Nat) (e : Char) (r2 : List Char) :
    parseJStringF (fuel + 1) ('\\' :: e :: r2) =
      (if e = '"' then (fun p => ('"' :: p.1, p.2)) <$> parseJStringF fuel r2
       else if e = '\\' then (fun p => ('\\' :: p.1, p.2)) <$> parseJStringF fuel r2
       else if e = '/' then (fun p => ('/' :: p.1, p.2)) <$> parseJStringF fuel r2
       else if e = 'b' then (fun p => ('\x08' :: p.1, p.2)) <$> parseJStringF fuel r2
       else if e = 'f' then (fun p => ('\x0c' :: p.1, p.2)) <$> parseJStringF fuel r2
       else if e = 'n' then (fun p => ('\n' :: p.1, p.2)) <$> parseJStringF fuel r2
       else if e = 'r' then (fun p => ('\r' :: p.1, p.2)) <$> parseJStringF fuel r2
       else if e = 't' then (fun p => ('\t' :: p.1, p.2)) <$> parseJStringF fuel r2
       else if e = 'u' then
         match r2 with
         | h1 :: h2 :: h3 :: h4 :: r3 =>
           match hexVal h1, hexVal h2, hexVal h3, hexVal h4 with
           | some a, some b, some cc, some d =>
             (fun p => (Char.ofNat (((a * 16 + b) * 16 + cc) * 16 + d) :: p.1, p.2))
               <$> parseJStringF fuel r3
           | _, _, _, _ => none
         | _ => none
       else none) := rfl

theorem map_snd_suffix {fuel : Nat} {r2 : List Char} {s r : List Char}
    (consumed : List Char) (g : List Char × List Char → List Char × List Char)
    (h2 : Option.map g (parseJStringF fuel r2) = some (s, r))
    (hg : ∀ p, (g p).2 = p.2)
    (ih : ∀ cs s r, parseJStringF fuel cs = some (s, r) → ∃ pre, cs = pre ++ r) :
    ∃ pre, consumed ++ r2 = pre ++ r := by
  obtain ⟨p, hp, he⟩ := Option.map_eq_some'.mp h2
  have hr : r = p.2 := by
    have h3 : (g p).2 = r := by rw [he]
    rw [hg p] at h3
    exact h3.symm
  subst hr
  exact append_suffix_step consumed rfl (ih r2 p.1 p.2 (by rw [hp]))

theorem parseJStringF_suffix :
    ∀ fuel cs s r, parseJStringF fuel cs = some (s, r) → ∃ pre, cs = pre ++ r := by
  intro fuel
  induction fuel with
  | zero =>
    intro cs s r h
    match cs with
    | [] => exact Option.noConfusion h
    | c :: rest => exact Option.noConfusion h
  | succ fuel ih =>
    intro cs s r h
    match cs with
    | [] => exact Option.noConfusion h
    | c :: rest =>
      by_cases hq : c = '"'
      · subst hq
        rw [show parseJStringF (fuel + 1) ('"' :: rest) = some ([], rest) from rfl] at h
        cases h
        exact ⟨['"'], rfl⟩
      · by_cases hb : c = '\\'
        · subst hb
          match rest with
          | [] => exact Option.noConfusion h
          | e :: r2 =>
            rw [parseJStringF_esc] at h
            split at h
            · exact map_snd_suffix ['\\', e] _ h (fun p => rfl) ih
            · split at h
              · exact map_snd_suffix ['\\', e] _ h (fun p => rfl) ih
              · split at h
                · exact map_snd_suffix ['\\', e] _ h (fun p => rfl) ih
                · split at h
                  · exact map_snd_suffix ['\\', e] _ h (fun p => rfl) ih
                  · split at h
                    · exact map_snd_suffix ['\\', e] _ h (fun p => rfl) ih
                    · split at h
                      · exact map_snd_suffix ['\\', e] _ h (fun p => rfl) ih
                      · split at h
                        · exact map_snd_suffix ['\\', e] _ h (fun p => rfl) ih
                        · split at h
                          · exact map_snd_suffix ['\\', e] _ h (fun p => rfl) ih
                          · split at h
                            · split at h
                              next h1 h2 h3 h4 r3 =>
                                split at h
                                next a b cc d =>
                                  exact map_snd_suffix ['\\', e, h1, h2, h3, h4] _ h
                                    (fun p => rfl) ih
                                next => exact Option.noConfusion h
                              next => exact Option.noConfusion h
                            · exact Option.noConfusion h
        · rw [parseJStringF_step, if_neg hq, if_neg hb] at h
          by_cases hn : c.toNat < 32
          · rw [if_pos hn] at h
            exact Option.noConfusion h
          · rw [if_neg hn] at h
            exact map_snd_suffix [c] _ h (fun p => rfl) ih

theorem parseIntDigits_suffix : ∀ {cs ds r}, parseIntDigits cs = some (ds, r) →
    ∃ pre, cs = pre ++ r := by
  intro cs ds r h
  match cs with
  | [] => exact Option.noConfusion h
  | c :: rest =>
    simp only [parseIntDigits] at h
    split at h
    · injection h with h2
      injection h2 with h3 h4
      exact ⟨[c], by rw [← h4]; rfl⟩
    · split at h
      · injection h with h2
        injection h2 with h3 h4
        rw [← h4]
        exact append_suffix_step [c] rfl (dropWhile_suffix Char.isDigit rest)
      · exact Option.noConfusion h

theorem parseFracPart_suffix : ∀ {cs ds r}, parseFracPart cs = some (ds, r) →
    ∃ pre, cs = pre ++ r := by
  intro cs ds r h
  unfold parseFracPart at h
  split at h
  next d rest =>
    split at h
    · injection h with h2
      injection h2 with h3 h4
      rw [← h4]
      exact append_suffix_step ['.', d] rfl (dropWhile_suffix Char.isDigit rest)
    · exact Option.noConfusion h
  next => exact Option.noConfusion h

theorem parseExpPart_suffix : ∀ {cs ds r}, parseExpPart cs = some (ds, r) →
    ∃ pre, cs = pre ++ r := by
  intro cs ds r h
  match cs with
  | [] => exact Option.noConfusion h
  | e :: rest =>
    simp only [parseExpPart] at h
    split at h
    · split at h
      next s r2 =>
        split at h
        · split at h
          next d r3 =>
            split at h
            · injection h with h2
              injection h2 with h3 h4
              rw [← h4]
              exact append_suffix_step [e, s, d] rfl (dropWhile_suffix Char.isDigit r3)
            · exact Option.noConfusion h
          next => exact Option.noConfusion h
        · split at h
          · injection h with h2
            injection h2 with h3 h4
            rw [← h4]
            exact append_suffix_step [e, s] rfl (dropWhile_suffix Char.isDigit r2)
          · exact Option.noConfusion h
      next => exact Option.noConfusion h
    · exact Option.noConfusion h

theorem splitSign_suffix (cs : List Char) : ∃ pre, cs = pre ++ (splitSign cs).2 := by
  match cs with
  | [] => exact ⟨[], rfl⟩
  | '-' :: rest => exact ⟨['-'], rfl⟩
  | c :: rest =>
    unfold splitSign
    split
    next heq => cases heq; exact ⟨['-'], rfl⟩
    next => exact ⟨[], rfl⟩

theorem fracOr_suffix (r1 : List Char) : ∃ pre, r1 = pre ++ (fracOr r1).2 := by
  unfold fracOr
  split
  next f rr heq => exact parseFracPart_suffix heq
  next => exact ⟨[], rfl⟩

theorem expOr_suffix (r2 : List Char) : ∃ pre, r2 = pre ++ (expOr r2).2 := by
  unfold expOr
  split
  next e rr heq => exact parseExpPart_suffix heq
  next => exact ⟨[], rfl⟩

theorem parseJNumber_suffix {cs v r} (h : parseJNumber cs = some (v, r)) :
    ∃ pre, cs = pre ++ r := by
  unfold parseJNumber at h
  split at h
  · exact Option.noConfusion h
  next ids r1 heq =>
    have hr : r = (expOr (fracOr r1).2).2 := by
      split at h <;>
        · injection h with h2
          injection h2 with h3 h4
          exact h4.symm
    rw [hr]
    refine append_suffix_step _ (splitSign_suffix cs).choose_spec ?_
    refine append_suffix_step _ (parseIntDigits_suffix heq).choose_spec ?_
    exact append_suffix_step _ (fracOr_suffix r1).choose_spec (expOr_suffix (fracOr r1).2)

theorem parseValue_step (fuel : Nat) (c : Char) (rest : List Char) :
    parseValue (fuel + 1) (c :: rest) =
      (if c = '"' then (fun p => (Json.str p.1, p.2)) <$> parseJString rest
       else if c = '{' then parseObjBody fuel (rest.dropWhile isJsonWs)
       else if c = '[' then parseArrBody fuel (rest.dropWhile isJsonWs)
       else if ['n', 'u', 'l', 'l'].isPrefixOf (c :: rest) then some (Json.null, rest.drop 3)
       else if ['t', 'r', 'u', 'e'].isPrefixOf (c :: rest) then some (Json.bool true, rest.drop 3)
       else if ['f', 'a', 'l', 's', 'e'].isPrefixOf (c :: rest) then
         some (Json.bool false, rest.drop 4)
       else
         match parseJNumber (c :: rest) with
         | some r => some r
         | none =>
           if ['N', 'a', 'N'].isPrefixOf (c :: rest) then
             some (Json.floatLit ['N', 'a', 'N'], rest.drop 2)
           else if ['I', 'n', 'f', 'i', 'n', 'i', 't', 'y'].isPrefixOf (c :: rest) then
             some (Json.floatLit ['I', 'n', 'f'], rest.drop 7)
           else if ['-', 'I', 'n', 'f', 'i', 'n', 'i', 't', 'y'].isPrefixOf (c :: rest) then
             some (Json.floatLit ['-', 'I', 'n', 'f'], rest.drop 8)
           else none) := rfl

theorem parseObjBody_step (fuel : Nat) (c : Char) (rest : List Char) :
    parseObjBody (fuel + 1) (c :: rest) =
      (if c = '}' then some (Json.obj [], rest)
       else (fun p => (Json.obj p.1, p.2)) <$> parseMembers fuel (c :: rest)) := rfl

theorem parseMembers_step (fuel : Nat) (c0 : Char) (r0 : List Char) :
    parseMembers (fuel + 1) (c0 :: r0) =
      (if c0 = '"' then
        match parseJString r0 with
        | none => none
        | some (key, r1) =>
          match r1.dropWhile isJsonWs with
          | [] => none
          | c1 :: r2 =>
            if c1 = ':' then
              match parseValue fuel (r2.dropWhile isJsonWs) with
              | none => none
              | some (v, r3) =>
                match r3.dropWhile isJsonWs with
                | [] => none
                | c2 :: r4 =>
                  if c2 = '}' then some ([(key, v)], r4)
                  else if c2 = ',' then
                    (fun p => ((key, v) :: p.1, p.2)) <$>
                      parseMembers fuel (r4.dropWhile isJsonWs)
                  else none
            else none
      else none) := rfl

theorem parseArrBody_step (fuel : Nat) (c : Char) (rest : List Char) :
    parseArrBody (fuel + 1) (c :: rest) =
      (if c = ']' then some (Json.arr [], rest)
       else (fun p => (Json.arr p.1, p.2)) <$> parseElems fuel (c :: rest)) := rfl

theorem parseElems_step (fuel : Nat) (cs : List Char) :
    parseElems (fuel + 1) cs =
      (match parseValue fuel cs with
       | none => none
       | some (v, r1) =>
         match r1.dropWhile isJsonWs with
         | [] => none
         | c1 :: r2 =>
           if c1 = ']' then some ([v], r2)
           else if c1 = ',' then
             (fun p => (v :: p.1, p.2)) <$> parseElems fuel (r2.dropWhile isJsonWs)
           else none) := rfl

theorem parseJString_suffix {cs s r} (h : parseJString cs = some (s, r)) :
    ∃ pre, cs = pre ++ r :=
  parseJStringF_suffix (cs.length + 1) cs s r h

/-- The decoder consumes a prefix: whatever any of the mutually
recursive scanner functions returns as remainder is a suffix of its
input. -/
theorem parser_suffix : ∀ fuel : Nat,
    (∀ cs v r, parseValue fuel cs = some (v, r) → ∃ p, cs = p ++ r) ∧
    (∀ cs v r, parseObjBody fuel cs = some (v, r) → ∃ p, cs = p ++ r) ∧
    (∀ cs m r, parseMembers fuel cs = some (m, r) → ∃ p, cs = p ++ r) ∧
    (∀ cs v r, parseArrBody fuel cs = some (v, r) → ∃ p, cs = p ++ r) ∧
    (∀ cs es r, parseElems fuel cs = some (es, r) → ∃ p, cs = p ++ r) := by
  intro fuel
  induction fuel with
  | zero =>
    refine ⟨?_, ?_, ?_, ?_, ?_⟩ <;>
      · intro cs v r h
        exact Option.noConfusion h
  | succ fuel ih =>
    obtain ⟨ihV, ihO, ihM, ihA, ihE⟩ := ih
    have hdw : ∀ (a : List Char) (r : List Char),
        (∃ p, a.dropWhile isJsonWs = p ++ r) → ∃ p, a = p ++ r := by
      intro a r hp
      exact append_suffix_step _ (dropWhile_suffix isJsonWs a).choose_spec hp
    refine ⟨?_, ?_, ?_, ?_, ?_⟩
    · -- parseValue
      intro cs v r h
      match cs with
      | [] => exact Option.noConfusion h
      | c :: rest =>
        rw [parseValue_step] at h
        split at h
        · obtain ⟨p, hp, he⟩ := Option.map_eq_some'.mp h
          injection he with he1 he2
          subst he2
          exact append_suffix_step [c] rfl (parseJString_suffix (by rw [hp]))
        · split at h
          · exact append_suffix_step [c] rfl (hdw rest r (ihO _ v r h))
          · split at h
            · exact append_suffix_step [c] rfl (hdw rest r (ihA _ v r h))
            · split at h
              · cases h
                exact ⟨c :: rest.take 3, by rw [List.cons_append, List.take_append_drop]⟩
              · split at h
                · cases h
                  exact ⟨c :: rest.take 3, by rw [List.cons_append, List.take_append_drop]⟩
                · split at h
                  · cases h
                    exact ⟨c :: rest.take 4, by rw [List.cons_append, List.take_append_drop]⟩
                  · split at h
                    next r0 heq =>
                      cases h
                      exact parseJNumber_suffix heq
                    next =>
                      split at h
                      · cases h
                        exact ⟨c :: rest.take 2, by rw [List.cons_append, List.take_append_drop]⟩
                      · split at h
                        · cases h
                          exact ⟨c :: rest.take 7,
                            by rw [List.cons_append, List.take_append_drop]⟩
                        · split at h
                          · cases h
                            exact ⟨c :: rest.take 8,
                              by rw [List.cons_append, List.take_append_drop]⟩
                          · exact Option.noConfusion h
    · -- parseObjBody
      intro cs v r h
      match cs with
      | [] => exact Option.noConfusion h
      | c :: rest =>
        rw [parseObjBody_step] at h
        split at h
        · cases h
          exact ⟨[c], rfl⟩
        · obtain ⟨p, hp, he⟩ := Option.map_eq_some'.mp h
          injection he with he1 he2
          subst he2
          exact ihM _ p.1 p.2 (by rw [hp])
    · -- parseMembers
      intro cs m r h
      match cs with
      | [] => exact Option.noConfusion h
      | c0 :: r0 =>
        rw [parseMembers_step] at h
        split at h
        · split at h
          · exact Option.noConfusion h
          next key r1 heqs =>
            split at h
            · exact Option.noConfusion h
            next c1 r2 heq1 =>
              split at h
              · split at h
                · exact Option.noConfusion h
                next v r3 heqv =>
                  split at h
                  · exact Option.noConfusion h
                  next c2 r4 heq2 =>
                    have base : ∀ rr, (∃ p, r4 = p ++ rr) → ∃ p, c0 :: r0 = p ++ rr := by
                      intro rr h4
                      have h3 : ∃ p, r3 = p ++ rr := by
                        refine append_suffix_step _
                          (dropWhile_suffix isJsonWs r3).choose_spec ?_
                        rw [heq2]
                        obtain ⟨p, hp⟩ := h4
                        exact ⟨c2 :: p, by rw [hp]; rfl⟩
                      have h2 : ∃ p, r2.dropWhile isJsonWs = p ++ rr :=
                        append_suffix_step _ (ihV _ v r3 heqv).choose_spec h3
                      have h1 : ∃ p, r1 = p ++ rr := by
                        refine append_suffix_step _
                          (dropWhile_suffix isJsonWs r1).choose_spec ?_
                        rw [heq1]
                        obtain ⟨p, hp⟩ := hdw r2 rr h2
                        exact ⟨c1 :: p, by rw [hp]; rfl⟩
                      have h0 : ∃ p, r0 = p ++ rr :=
                        append_suffix_step _ (parseJString_suffix heqs).choose_spec h1
                      exact append_suffix_step [c0] rfl h0
                    split at h
                    · cases h
                      exact base r ⟨[], rfl⟩
                    · split at h
                      · obtain ⟨p, hp, he⟩ := Option.map_eq_some'.mp h
                        injection he with he1 he2
                        subst he2
                        exact base p.2 (hdw r4 p.2 (ihM _ p.1 p.2 (by rw [hp])))
                      · exact Option.noConfusion h
              · exact Option.noConfusion h
        · exact Option.noConfusion h
    · -- parseArrBody
      intro cs v r h
      match cs with
      | [] =>
        obtain ⟨p, hp, he⟩ := Option.map_eq_some'.mp h
        injection he with he1 he2
        subst he2
        exact ihE _ p.1 p.2 (by rw [hp])
      | c :: rest =>
        rw [parseArrBody_step] at h
        split at h
        · cases h
          exact ⟨[c], rfl⟩
        · obtain ⟨p, hp, he⟩ := Option.map_eq_some'.mp h
          injection he with he1 he2
          subst he2
          exact ihE _ p.1 p.2 (by rw [hp])
    · -- parseElems
      intro cs es r h
      rw [parseElems_step] at h
      split at h
      · exact Option.noConfusion h
      next v r1 heqv =>
        split at h
        · exact Option.noConfusion h
        next c1 r2 heq1 =>
          have base : ∀ rr, (∃ p, r2 = p ++ rr) → ∃ p, cs = p ++ rr := by
            intro rr h2
            have h1 : ∃ p, r1 = p ++ rr := by
              refine append_suffix_step _ (dropWhile_suffix isJsonWs r1).choose_spec ?_
              rw [heq1]
              obtain ⟨p, hp⟩ := h2
              exact ⟨c1 :: p, by rw [hp]; rfl⟩
            exact append_suffix_step _ (ihV _ v r1 heqv).choose_spec h1
          split at h
          · cases h
            exact base r ⟨[], rfl⟩
          · split at h
            · obtain ⟨p, hp, he⟩ := Option.map_eq_some'.mp h
              injection he with he1 he2
              subst he2
              exact base p.2 (hdw r2 p.2 (ihE _ p.1 p.2 (by rw [hp])))
            · exact Option.noConfusion h

/-- C4 amended: attempts 2-4 of the cascade use prefix-decode
semantics — `raw_decode` consumes a prefix of its input and ignores the
remainder — while the first attempt, `json.loads`, fails whenever
non-whitespace content remains after the decoded value. -/
theorem claim_C4 :
    (∀ cs v rest, rawDecode cs = some (v, rest) → ∃ pre, cs = pre ++ rest) ∧
    (∀ cs v rest, rawDecode (cs.dropWhile isJsonWs) = some (v, rest) →
      rest.dropWhile isJsonWs ≠ [] → jsonLoads cs = none) := by
  constructor
  · intro cs v rest h
    exact (parser_suffix (2 * cs.length + 2)).1 cs v rest h
  · intro cs v rest h h2
    unfold jsonLoads
    rw [h]
    simp [h2]

theorem claim_C4_witness :
    (∃ pre, ("[1] tail").data = pre ++ (" tail").data) ∧
    jsonLoads (("[1] tail").data) = none :=
  ⟨claim_C4.1 (("[1] tail").data) (Json.arr [Json.num 1]) ((" tail").data) rfl,
   claim_C4.2 (("[1] tail").data) (Json.arr [Json.num 1]) ((" tail").data) rfl (by decide)⟩

theorem getLast?_cons_ne {c : Char} {t : List Char} (ht : t ≠ []) :
    (c :: t).getLast? = t.getLast? := by
  match t with
  | [] => exact absurd rfl ht
  | b :: l => exact List.getLast?_cons_cons

theorem braceDepth_cons (d : Nat) (c : Char) (l : List Char) :
    braceDepth d (c :: l) =
      braceDepth (if c = '{' then d + 1 else if c = '}' then d - 1 else d) l := by
  simp [braceDepth, List.foldl_cons]

theorem balAux_spec : ∀ cs d acc t, balAux cs d acc = some t →
    ∃ t2, t = acc.reverse ++ t2 ∧ (∃ u, cs = t2 ++ u) ∧ t2 ≠ [] ∧
      t2.getLast? = some '}' ∧ braceDepth d t2 = 0 ∧
      (∀ p u, t2 = p ++ u → u ≠ [] → p.getLast? = some '}' → braceDepth d p ≠ 0) := by
  intro cs
  induction cs with
  | nil => intro d acc t h; exact Option.noConfusion h
  | cons c rest ih =>
    intro d acc t h
    unfold balAux at h
    split at h
    next hc =>
      obtain ⟨t3, ht, ⟨u, hu⟩, hne, hlast, hdep, hmin⟩ := ih (d + 1) (c :: acc) t h
      subst hc
      refine ⟨'{' :: t3, ?_, ⟨u, by rw [hu]; rfl⟩, by simp, ?_, ?_, ?_⟩
      · rw [ht]; simp
      · rw [getLast?_cons_ne hne]; exact hlast
      · rw [braceDepth_cons]; simpa using hdep
      · intro p u2 hp hu2 hpl
        match p with
        | [] => exact absurd hpl (by simp)
        | p0 :: p3 =>
          injection hp with hp0 hp3
          subst hp0
          have hp3ne : p3 ≠ [] := by
            intro hh
            subst hh
            simp at hpl
          rw [braceDepth_cons]
          simp only [if_pos rfl]
          refine hmin p3 u2 hp3 hu2 ?_
          rw [getLast?_cons_ne hp3ne] at hpl
          exact hpl
    next hc =>
      split at h
      next hc2 =>
        split at h
        next hd =>
          cases h
          subst hc2
          refine ⟨['}'], by simp, ⟨rest, rfl⟩, by simp, by simp [List.getLast?], ?_, ?_⟩
          · rw [braceDepth_cons]
            simp only [if_neg (by decide : ¬('}' : Char) = '{'), if_pos rfl]
            simpa [braceDepth] using hd
          · intro p u2 hp hu2 hpl
            match p, u2, hp with
            | [], _, _ => simp at hpl
            | [x], u2, hp =>
              simp at hp
              exact absurd hp.2 hu2
        next hd =>
          obtain ⟨t3, ht, ⟨u, hu⟩, hne, hlast, hdep, hmin⟩ := ih (d - 1) (c :: acc) t h
          subst hc2
          refine ⟨'}' :: t3, ?_, ⟨u, by rw [hu]; rfl⟩, by simp, ?_, ?_, ?_⟩
          · rw [ht]; simp
          · rw [getLast?_cons_ne hne]; exact hlast
          · rw [braceDepth_cons]
            simp only [if_neg (by decide : ¬('}' : Char) = '{'), if_pos rfl]
            exact hdep
          · intro p u2 hp hu2 hpl
            match p with
            | [] => exact absurd hpl (by simp)
            | p0 :: p3 =>
              injection hp with hp0 hp3
              subst hp0
              rw [braceDepth_cons]
              simp only [if_neg (by decide : ¬('}' : Char) = '{'), if_pos rfl]
              match p3 with
              | [] => simpa [braceDepth] using hd
              | q :: p4 =>
                refine hmin (q :: p4) u2 hp3 hu2 ?_
                rw [getLast?_cons_ne (by simp)] at hpl
                exact hpl
      next hc2 =>
        obtain ⟨t3, ht, ⟨u, hu⟩, hne, hlast, hdep, hmin⟩ := ih d (c :: acc) t h
        refine ⟨c :: t3, ?_, ⟨u, by rw [hu]; rfl⟩, by simp, ?_, ?_, ?_⟩
        · rw [ht]; simp
        · rw [getLast?_cons_ne hne]; exact hlast
        · rw [braceDepth_cons]
          simp only [if_neg hc, if_neg hc2]
          exact hdep
        · intro p u2 hp hu2 hpl
          match p with
          | [] => exact absurd hpl (by simp)
          | p0 :: p3 =>
            injection hp with hp0 hp3
            subst hp0
            rw [braceDepth_cons]
            simp only [if_neg hc, if_neg hc2]
            match p3 with
            | [] =>
              simp [List.getLast?] at hpl
              exact absurd hpl hc2
            | q :: p4 =>
              refine hmin (q :: p4) u2 hp3 hu2 ?_
              rw [getLast?_cons_ne (by simp)] at hpl
              exact hpl

/-- C3 amended: the fallback's depth scan counts every `{` and `}`
alike — including those inside string literals: the region it selects
is the shortest nonempty prefix of the candidate that ends in `}` and
whose saturating raw brace count returns to zero.  (The string-aware
scan described by the spec would not satisfy the raw-count property;
see the counterexample.) -/
theorem claim_C3 (cs t : List Char) (h : balancedRegion cs = some t) :
    (∃ u, cs = t ++ u) ∧ t ≠ [] ∧ t.getLast? = some '}' ∧ braceDepth 0 t = 0 ∧
    (∀ p u, t = p ++ u → u ≠ [] → p.getLast? = some '}' → braceDepth 0 p ≠ 0) := by
  obtain ⟨t2, ht, hsfx, hne, hlast, hdep, hmin⟩ := balAux_spec cs 0 [] t h
  simp only [List.reverse_nil, List.nil_append] at ht
  subst ht
  exact ⟨hsfx, hne, hlast, hdep, hmin⟩

theorem claim_C3_witness :
    (∃ u, ("\x7b\"a\": 1\x7d x").data = ("\x7b\"a\": 1\x7d").data ++ u) ∧
    ("\x7b\"a\": 1\x7d").data ≠ [] ∧
    (("\x7b\"a\": 1\x7d").data).getLast? = some '}' ∧
    braceDepth 0 (("\x7b\"a\": 1\x7d").data) = 0 ∧
    (∀ p u, ("\x7b\"a\": 1\x7d").data = p ++ u → u ≠ [] → p.getLast? = some '}' →
      braceDepth 0 p ≠ 0) :=
  claim_C3 (("\x7b\"a\": 1\x7d x").data) (("\x7b\"a\": 1\x7d").data) rfl

theorem stripAux_step (fuel m : Nat) (e : Bool) (c : Char) (rest : List Char) :
    stripAux (fuel + 1) m e (c :: rest) =
      (if m = 1 then
        if c = '\\' then c :: stripAux fuel 1 (!e) rest
        else if c = '"' && !e then c :: stripAux fuel 0 e rest
        else c :: stripAux fuel 1 false rest
      else if m = 2 then
        if c = '\n' then c :: stripAux fuel 0 e rest
        else stripAux fuel 2 e rest
      else if m = 3 then
        if c = '*' && rest.head? = some '/' then stripAux fuel 0 e rest.tail
        else stripAux fuel 3 e rest
      else
        if c = '"' then c :: stripAux fuel 1 e rest
        else if c = '/' && rest.head? = some '/' then stripAux fuel 2 e rest.tail
        else if c = '/' && rest.head? = some '*' then stripAux fuel 3 e rest.tail
        else c :: stripAux fuel 0 e rest) := rfl

theorem stripAux_fuelIrrel :
    ∀ f g m : Nat, ∀ e cs, cs.length < f → cs.length < g →
      stripAux f m e cs = stripAux g m e cs := by
  intro f
  induction f with
  | zero => intro g m e cs hf hg; omega
  | succ f ihf =>
    intro g m e cs hf hg
    match g with
    | 0 => omega
    | g + 1 =>
      match cs with
      | [] => rfl
      | c :: rest =>
        rw [stripAux_step, stripAux_step]
        simp only [List.length_cons] at hf hg
        have hr : rest.length < f := by omega
        have hrg : rest.length < g := by omega
        have ht : rest.tail.length < f := by
          have := List.length_tail rest
          omega
        have htg : rest.tail.length < g := by
          have := List.length_tail rest
          omega
        split_ifs <;>
          first
            | rfl
            | exact ihf g _ _ _ hr hrg
            | exact ihf g _ _ _ ht htg
            | exact congrArg (c :: ·) (ihf g _ _ _ hr hrg)
            | exact congrArg (c :: ·) (ihf g _ _ _ ht htg)

theorem stripAux_step0 (fuel : Nat) (e : Bool) (c : Char) (rest : List Char) :
    stripAux (fuel + 1) 0 e (c :: rest) =
      (if c = '"' then c :: stripAux fuel 1 e rest
       else if c = '/' && rest.head? = some '/' then stripAux fuel 2 e rest.tail
       else if c = '/' && rest.head? = some '*' then stripAux fuel 3 e rest.tail
       else c :: stripAux fuel 0 e rest) := rfl

theorem stripAux_step1 (fuel : Nat) (e : Bool) (c : Char) (rest : List Char) :
    stripAux (fuel + 1) 1 e (c :: rest) =
      (if c = '\\' then c :: stripAux fuel 1 (!e) rest
       else if c = '"' && !e then c :: stripAux fuel 0 e rest
       else c :: stripAux fuel 1 false rest) := rfl

theorem stripAux_step2 (fuel : Nat) (e : Bool) (c : Char) (rest : List Char) :
    stripAux (fuel + 1) 2 e (c :: rest) =
      (if c = '\n' then c :: stripAux fuel 0 e rest
       else stripAux fuel 2 e rest) := rfl

theorem stripAux_step3 (fuel : Nat) (e : Bool) (c : Char) (rest : List Char) :
    stripAux (fuel + 1) 3 e (c :: rest) =
      (if c = '*' && rest.head? = some '/' then stripAux fuel 0 e rest.tail
       else stripAux fuel 3 e rest) := rfl

theorem stripAux_inString :
    ∀ body : List Char, ∀ e : Bool, ∀ f : Nat, ∀ rest : List Char,
      stringMode e body = some false →
      stripAux (body.length + f + 1) 1 e (body ++ '"' :: rest) =
        body ++ '"' :: stripAux f 0 false rest := by
  intro body
  induction body with
  | nil =>
    intro e f rest hm
    have he : e = false := by
      simp [stringMode] at hm
      exact hm
    subst he
    simp only [List.length_nil, Nat.zero_add, List.nil_append]
    rw [stripAux_step1, if_neg (by decide), if_pos (by decide)]
  | cons c body ih =>
    intro e f rest hm
    unfold stringMode at hm
    have harith : (c :: body).length + f + 1 = (body.length + f + 1) + 1 := by
      simp only [List.length_cons]
      omega
    rw [harith, List.cons_append, stripAux_step1]
    split at hm
    next hb =>
      subst hb
      rw [if_pos rfl, ih (!e) f rest hm]
      rfl
    next hb =>
      split at hm
      · exact Option.noConfusion hm
      next hq =>
        rw [if_neg hb, if_neg hq, ih false f rest hm]
        rfl

theorem stripAux_lineComment :
    ∀ com : List Char, ∀ e : Bool, ∀ f : Nat, ∀ rest : List Char,
      '\n' ∉ com →
      stripAux (com.length + f + 1) 2 e (com ++ '\n' :: rest) =
        '\n' :: stripAux f 0 e rest := by
  intro com
  induction com with
  | nil =>
    intro e f rest _
    simp only [List.length_nil, Nat.zero_add, List.nil_append]
    rw [stripAux_step2, if_pos rfl]
  | cons c com ih =>
    intro e f rest hm
    have harith : (c :: com).length + f + 1 = (com.length + f + 1) + 1 := by
      simp only [List.length_cons]
      omega
    rw [harith, List.cons_append, stripAux_step2]
    have hc : c ≠ '\n' := fun hh => hm (hh ▸ List.mem_cons_self c com)
    rw [if_neg hc]
    exact ih e f rest (fun hh => hm (List.mem_cons_of_mem c hh))

theorem stripAux_blockComment :
    ∀ com : List Char, ∀ e : Bool, ∀ f : Nat, ∀ rest : List Char,
      '/' ∉ com → com.length + rest.length + 2 ≤ f →
      stripAux f 3 e (com ++ '*' :: '/' :: rest) =
        stripAux (rest.length + 1) 0 e rest := by
  intro com
  induction com with
  | nil =>
    intro e f rest hm hf
    match f, hf with
    | f + 1, hf =>
      simp only [List.nil_append]
      rw [stripAux_step3, if_pos (by simp)]
      simp only [List.tail_cons]
      refine stripAux_fuelIrrel f (rest.length + 1) 0 e rest ?_ (by omega)
      simp only [List.length_nil] at hf
      omega
  | cons c com ih =>
    intro e f rest hm hf
    match f, hf with
    | f + 1, hf =>
      rw [List.cons_append, stripAux_step3]
      have hcond : ¬((c = '*' && (com ++ '*' :: '/' :: rest).head? = some '/') = true) := by
        match com with
        | [] => simp
        | d :: com2 =>
          have hd : d ≠ '/' := fun hh =>
            hm (hh ▸ List.mem_cons_of_mem c (List.mem_cons_self d com2))
          simp [hd]
      rw [if_neg hcond]
      refine ih e f rest (fun hh => hm (List.mem_cons_of_mem c hh)) ?_
      simp only [List.length_cons] at hf
      omega

/-- C5: the comment stripper is string-aware.  (1) Ordinary characters
outside strings pass through.  (2) A double-quoted string whose body
keeps the scanner in its in-string state (per the scanner's own escape
discipline) is copied through verbatim — in particular `//` or `/*`
sequences inside it survive.  (3) A `//` comment outside a string is
removed up to (not including) the newline.  (4) A `/* */` comment
outside a string is removed entirely (body without slashes). -/
theorem claim_C5 :
    (∀ c rest, c ≠ '"' → c ≠ '/' →
      strip_comments (c :: rest) = c :: strip_comments rest) ∧
    (∀ body rest, stringMode false body = some false →
      strip_comments ('"' :: body ++ '"' :: rest) =
        '"' :: body ++ '"' :: strip_comments rest) ∧
    (∀ com rest, '\n' ∉ com →
      strip_comments ('/' :: '/' :: com ++ '\n' :: rest) = '\n' :: strip_comments rest) ∧
    (∀ com rest, '/' ∉ com →
      strip_comments ('/' :: '*' :: com ++ '*' :: '/' :: rest) = strip_comments rest) := by
  refine ⟨?_, ?_, ?_, ?_⟩
  · intro c rest hq hs
    unfold strip_comments
    simp only [List.length_cons]
    rw [stripAux_step0, if_neg hq,
      if_neg (by simp [hs]), if_neg (by simp [hs])]
  · intro body rest hm
    unfold strip_comments
    have harith : ('"' :: body ++ '"' :: rest).length + 1 =
        (body.length + (rest.length + 1) + 1) + 1 := by
      simp only [List.length_cons, List.length_append]
      omega
    rw [harith, List.cons_append, stripAux_step0, if_pos rfl,
      stripAux_inString body false (rest.length + 1) rest hm]
    rfl
  · intro com rest hm
    unfold strip_comments
    simp only [List.cons_append]
    have harith : ('/' :: '/' :: (com ++ '\n' :: rest)).length + 1 =
        (com.length + (rest.length + 2) + 1) + 1 := by
      simp only [List.length_cons, List.length_append]
      omega
    rw [harith, stripAux_step0, if_neg (by decide), if_pos (by simp),
      List.tail_cons, stripAux_lineComment com false (rest.length + 2) rest hm,
      stripAux_fuelIrrel (rest.length + 2) (rest.length + 1) 0 false rest
        (by omega) (by omega)]
  · intro com rest hm
    unfold strip_comments
    simp only [List.cons_append]
    have harith : ('/' :: '*' :: (com ++ '*' :: '/' :: rest)).length + 1 =
        (com.length + rest.length + 4) + 1 := by
      simp only [List.length_cons, List.length_append]
      omega
    rw [harith, stripAux_step0, if_neg (by decide), if_neg (by simp), if_pos (by simp),
      List.tail_cons,
      stripAux_blockComment com false (com.length + rest.length + 4) rest hm (by omega)]

theorem claim_C5_witness :
    strip_comments (('"' :: ("https://example.com").data ++ '"' :: (" /* x */ 1").data)) =
      '"' :: ("https://example.com").data ++ '"' :: strip_comments ((" /* x */ 1").data) :=
  claim_C5.2.1 (("https://example.com").data) ((" /* x */ 1").data) (by decide)

/-- C3 counterexample: on the candidate `{"k": "a}b", "v": True}`
(which defeats every cascade stage, so the fallback runs) the source's
depth scan treats the `}` inside the double-quoted string value as a
closing brace and hands the truncated region `{"k": "a}` to the
literal parser, which fails, so extraction returns `none`; the
string-aware scan described by the spec selects the whole candidate,
which the lenient literal parser evaluates successfully. -/
theorem claim_C3_counterexample :
    balancedRegion (("\x7b\"k\": \"a\x7db\", \"v\": True\x7d").data) = some (("\x7b\"k\": \"a\x7d").data) ∧
    balancedRegionAware (("\x7b\"k\": \"a\x7db\", \"v\": True\x7d").data) =
      some (("\x7b\"k\": \"a\x7db\", \"v\": True\x7d").data) ∧
    astLiteralEval (("\x7b\"k\": \"a\x7db\", \"v\": True\x7d").data) =
      some (Json.obj [(("k").data, Json.str ("a\x7db").data), (("v").data, Json.bool true)]) ∧
    extract_json ("\x7b\"k\": \"a\x7db\", \"v\": True\x7d") = none :=
  ⟨rfl, rfl, rfl, rfl⟩

/-! ### Extension of the scanner under appended text

The raw decoder consumes a prefix.  The lemmas below show that
appending text that starts with a separator character (`headSafe`)
changes neither the decoded value nor the consumed prefix: the parse of
`cs ++ ext` returns the same value with `ext` glued onto the remainder.
This underlies the first-match behaviour of attempts 2-5. -/

theorem dropWhile_append_ne (p : Char → Bool) :
    ∀ (l : List Char) (ext : List Char), l.dropWhile p ≠ [] →
      (l ++ ext).dropWhile p = l.dropWhile p ++ ext := by
  intro l
  induction l with
  | nil => intro ext h; exact absurd rfl h
  | cons c l ih =>
    intro ext h
    by_cases hp : p c
    · rw [List.cons_append, List.dropWhile_cons_of_pos hp,
        List.dropWhile_cons_of_pos hp]
      exact ih ext (by rwa [List.dropWhile_cons_of_pos hp] at h)
    · rw [List.cons_append, List.dropWhile_cons_of_neg hp,
        List.dropWhile_cons_of_neg hp, List.cons_append]

theorem head_not_takeWhile {p : Char → Bool} {ext : List Char}
    (h : ∀ c, ext.head? = some c → p c = false) : ext.takeWhile p = [] := by
  cases ext with
  | nil => rfl
  | cons c r => rw [List.takeWhile_cons_of_neg (by simp [h c rfl])]

theorem head_not_dropWhile {p : Char → Bool} {ext : List Char}
    (h : ∀ c, ext.head? = some c → p c = false) : ext.dropWhile p = ext := by
  cases ext with
  | nil => rfl
  | cons c r => rw [List.dropWhile_cons_of_neg (by simp [h c rfl])]

theorem takeWhile_append_stop {p : Char → Bool} {ext : List Char}
    (hext : ∀ c, ext.head? = some c → p c = false) :
    ∀ l : List Char, (l ++ ext).takeWhile p = l.takeWhile p := by
  intro l
  induction l with
  | nil => exact head_not_takeWhile hext
  | cons c l ih =>
    by_cases hp : p c
    · rw [List.cons_append, List.takeWhile_cons_of_pos hp,
        List.takeWhile_cons_of_pos hp, ih]
    · rw [List.cons_append, List.takeWhile_cons_of_neg hp,
        List.takeWhile_cons_of_neg hp]

theorem dropWhile_append_stop {p : Char → Bool} {ext : List Char}
    (hext : ∀ c, ext.head? = some c → p c = false) :
    ∀ l : List Char, (l ++ ext).dropWhile p = l.dropWhile p ++ ext := by
  intro l
  induction l with
  | nil =>
    rw [List.nil_append, List.dropWhile_nil, List.nil_append]
    exact head_not_dropWhile hext
  | cons c l ih =>
    by_cases hp : p c
    · rw [List.cons_append, List.dropWhile_cons_of_pos hp,
        List.dropWhile_cons_of_pos hp, ih]
    · rw [List.cons_append, List.dropWhile_cons_of_neg hp,
        List.dropWhile_cons_of_neg hp, List.cons_append]

theorem drop_append_le : ∀ (k : Nat) (l ext : List Char), k ≤ l.length →
    (l ++ ext).drop k = l.drop k ++ ext := by
  intro k
  induction k with
  | zero => intro l ext _; rw [List.drop_zero, List.drop_zero]
  | succ k ih =>
    intro l ext hk
    cases l with
    | nil => simp at hk
    | cons c l =>
      rw [List.cons_append, List.drop_succ_cons, List.drop_succ_cons]
      exact ih l ext (Nat.le_of_succ_le_succ hk)

theorem isPrefixOf_length_le : ∀ {p l : List Char}, p.isPrefixOf l = true →
    p.length ≤ l.length := by
  intro p
  induction p with
  | nil => intro l _; exact Nat.zero_le _
  | cons a p ih =>
    intro l h
    cases l with
    | nil => simp [List.isPrefixOf] at h
    | cons b l =>
      simp only [List.isPrefixOf, Bool.and_eq_true] at h
      simpa [Nat.succ_le_succ_iff] using ih h.2

theorem isPrefixOf_append_of (ext : List Char) :
    ∀ {p l : List Char}, p.isPrefixOf l = true →
      p.isPrefixOf (l ++ ext) = true := by
  intro p
  induction p with
  | nil => intro l _; simp [List.isPrefixOf]
  | cons a p ih =>
    intro l h
    cases l with
    | nil => simp [List.isPrefixOf] at h
    | cons b l =>
      simp only [List.isPrefixOf, Bool.and_eq_true] at h
      rw [List.cons_append]
      simp only [List.isPrefixOf, Bool.and_eq_true]
      exact ⟨h.1, ih h.2⟩

theorem isPrefixOf_extend {ext : List Char} :
    ∀ {p l : List Char}, p.isPrefixOf l = false →
      p.isPrefixOf (l ++ ext) = true → ∃ c, ext.head? = some c ∧ c ∈ p := by
  intro p
  induction p with
  | nil => intro l h _; simp [List.isPrefixOf] at h
  | cons a p ih =>
    intro l h1 h2
    cases l with
    | nil =>
      rw [List.nil_append] at h2
      cases ext with
      | nil => simp [List.isPrefixOf] at h2
      | cons e r =>
        simp only [List.isPrefixOf, Bool.and_eq_true, beq_iff_eq] at h2
        exact ⟨e, rfl, by rw [h2.1]; exact List.mem_cons_self e p⟩
    | cons b l =>
      rw [List.cons_append] at h2
      simp only [List.isPrefixOf, Bool.and_eq_true] at h2
      simp only [List.isPrefixOf] at h1
      rw [h2.1, Bool.true_and] at h1
      obtain ⟨c, hc, hm⟩ := ih h1 h2.2
      exact ⟨c, hc, List.mem_cons_of_mem a hm⟩

theorem headSafe_cases {ext : List Char} {c : Char}
    (hs : headSafe ext = true) (hc : ext.head? = some c) :
    c = ',' ∨ c = ']' ∨ c = '}' ∨ c = ' ' := by
  cases ext with
  | nil => exact Option.noConfusion hc
  | cons e r =>
    injection hc with hc
    subst hc
    have h := hs
    simp only [headSafe, Bool.or_eq_true, decide_eq_true_eq] at h
    tauto

theorem kwPrefixOf_append {ext : List Char} (hs : headSafe ext = true)
    (p l : List Char)
    (hp : ',' ∉ p ∧ ']' ∉ p ∧ '}' ∉ p ∧ ' ' ∉ p) :
    p.isPrefixOf (l ++ ext) = p.isPrefixOf l := by
  cases hpl : p.isPrefixOf l with
  | true => exact isPrefixOf_append_of ext hpl
  | false =>
    cases h2 : p.isPrefixOf (l ++ ext) with
    | false => rfl
    | true =>
      obtain ⟨c, hc, hm⟩ := isPrefixOf_extend hpl h2
      rcases headSafe_cases hs hc with h | h | h | h <;>
        · subst h
          first
            | exact absurd hm hp.1
            | exact absurd hm hp.2.1
            | exact absurd hm hp.2.2.1
            | exact absurd hm hp.2.2.2

theorem parseValue_nil : ∀ fuel, parseValue fuel [] = none := by
  intro fuel; cases fuel <;> rfl

theorem parseObjBody_nil : ∀ fuel, parseObjBody fuel [] = none := by
  intro fuel; cases fuel <;> rfl

theorem parseMembers_nil : ∀ fuel, parseMembers fuel [] = none := by
  intro fuel; cases fuel <;> rfl

theorem parseElems_nil : ∀ fuel, parseElems fuel [] = none := by
  intro fuel
  cases fuel with
  | zero => rfl
  | succ fuel => rw [parseElems_step, parseValue_nil]

theorem parseArrBody_nil : ∀ fuel, parseArrBody fuel [] = none := by
  intro fuel
  cases fuel with
  | zero => rfl
  | succ fuel =>
    show (fun p => (Json.arr p.1, p.2)) <$> parseElems fuel [] = none
    rw [parseElems_nil]
    rfl

theorem headSafe_head_not {ext : List Char} {c : Char}
    (hs : headSafe ext = true) (hc : ext.head? = some c) :
    Char.isDigit c = false ∧ c ≠ '.' ∧ c ≠ 'e' ∧ c ≠ 'E' ∧ c ≠ '-' ∧
      c ≠ '+' ∧ c ≠ '0' := by
  rcases headSafe_cases hs hc with h | h | h | h <;> subst h <;>
    refine ⟨by decide, by decide, by decide, by decide, by decide,
      by decide, by decide⟩

theorem splitSign_not : ∀ {cs : List Char}, (∀ r, cs ≠ '-' :: r) →
    splitSign cs = (false, cs) := by
  intro cs h
  rw [splitSign.eq_def]
  split
  · next r => exact absurd rfl (h r)
  · rfl

theorem splitSign_ext {ext : List Char} (hs : headSafe ext = true)
    (cs : List Char) :
    splitSign (cs ++ ext) = ((splitSign cs).1, (splitSign cs).2 ++ ext) := by
  cases cs with
  | nil =>
    rw [List.nil_append]
    have h1 : splitSign ext = (false, ext) := by
      apply splitSign_not
      intro r hr
      have h5 := (headSafe_head_not hs (by rw [hr]; rfl)).2.2.2.2.1
      exact h5 rfl
    rw [h1]
    rfl
  | cons c r =>
    by_cases hc : c = '-'
    · subst hc; rfl
    · have harg : ∀ r' : List Char, c :: (r ++ ext) ≠ '-' :: r' := by
        intro r' hr'
        injection hr' with hh _
        exact hc hh
      have harg2 : ∀ r' : List Char, c :: r ≠ '-' :: r' := by
        intro r' hr'
        injection hr' with hh _
        exact hc hh
      rw [List.cons_append, splitSign_not harg, splitSign_not harg2]
      rfl

theorem parseIntDigits_cons (c : Char) (l : List Char) :
    parseIntDigits (c :: l) =
      (if c = '0' then some (['0'], l)
       else if c.isDigit then
         some (c :: l.takeWhile Char.isDigit, l.dropWhile Char.isDigit)
       else none) := rfl

theorem parseIntDigits_ext {ext : List Char} (hs : headSafe ext = true)
    (cs : List Char) :
    parseIntDigits (cs ++ ext) =
      (parseIntDigits cs).map (fun p => (p.1, p.2 ++ ext)) := by
  have hdig : ∀ c, ext.head? = some c → Char.isDigit c = false :=
    fun c hc => (headSafe_head_not hs hc).1
  cases cs with
  | nil =>
    rw [List.nil_append]
    cases hext : ext with
    | nil => rfl
    | cons e r =>
      have h5 := headSafe_head_not hs (by rw [hext]; rfl)
      rw [parseIntDigits_cons, if_neg h5.2.2.2.2.2.2,
        if_neg (by simp [h5.1])]
      rfl
  | cons c rest =>
    rw [List.cons_append, parseIntDigits_cons, parseIntDigits_cons]
    by_cases h0 : c = '0'
    · rw [if_pos h0, if_pos h0]; rfl
    · rw [if_neg h0, if_neg h0]
      by_cases hd : c.isDigit
      · rw [if_pos hd, if_pos hd, takeWhile_append_stop hdig,
          dropWhile_append_stop hdig]
        rfl
      · rw [if_neg hd, if_neg hd]; rfl

theorem parseFracPart_cons (d : Char) (rest : List Char) :
    parseFracPart ('.' :: d :: rest) =
      (if d.isDigit then
        some ('.' :: d :: rest.takeWhile Char.isDigit,
          rest.dropWhile Char.isDigit)
       else none) := rfl

theorem parseFracPart_not : ∀ {cs : List Char},
    (∀ d rest, cs ≠ '.' :: d :: rest) → parseFracPart cs = none := by
  intro cs h
  rw [parseFracPart.eq_def]
  split
  · next d rest => exact absurd rfl (h d rest)
  · rfl

theorem parseFracPart_ext {ext : List Char} (hs : headSafe ext = true)
    (r1 : List Char) :
    parseFracPart (r1 ++ ext) =
      (parseFracPart r1).map (fun p => (p.1, p.2 ++ ext)) := by
  have hdig : ∀ c, ext.head? = some c → Char.isDigit c = false :=
    fun c hc => (headSafe_head_not hs hc).1
  rcases r1 with _ | ⟨c, r⟩
  · rw [List.nil_append]
    have h1 : parseFracPart ext = none := by
      apply parseFracPart_not
      intro d rest hr
      exact (headSafe_head_not hs (by rw [hr]; rfl)).2.1 rfl
    rw [h1]
    rfl
  · by_cases hc : c = '.'
    · subst hc
      rcases r with _ | ⟨d, rest⟩
      · have hno : ∀ (d : Char) (rest : List Char),
            ('.' : Char) :: ([] : List Char) ≠ '.' :: d :: rest := by
          intro d rest hr
          injection hr with _ h2
          exact List.noConfusion h2
        rw [parseFracPart_not hno]
        cases hext : ext with
        | nil => rfl
        | cons e r' =>
          have h5 := headSafe_head_not hs (by rw [hext]; rfl)
          show parseFracPart ('.' :: e :: r') = none
          rw [parseFracPart_cons, if_neg (by simp [h5.1])]
      · rw [List.cons_append, List.cons_append, parseFracPart_cons,
          parseFracPart_cons]
        by_cases hd : d.isDigit
        · rw [if_pos hd, if_pos hd, takeWhile_append_stop hdig,
            dropWhile_append_stop hdig]
          rfl
        · rw [if_neg hd, if_neg hd]
          rfl
    · have hno1 : ∀ (d : Char) (rest : List Char),
          c :: (r ++ ext) ≠ '.' :: d :: rest := by
        intro d rest hr
        injection hr with h1 _
        exact hc h1
      have hno2 : ∀ (d : Char) (rest : List Char), c :: r ≠ '.' :: d :: rest := by
        intro d rest hr
        injection hr with h1 _
        exact hc h1
      rw [List.cons_append, parseFracPart_not hno1, parseFracPart_not hno2]
      rfl

theorem parseExpPart_cons (c : Char) (rest : List Char) :
    parseExpPart (c :: rest) =
      (if c = 'e' || c = 'E' then
        match rest with
        | s :: r2 =>
          if s = '+' || s = '-' then
            match r2 with
            | d :: r3 =>
              if d.isDigit then
                some (c :: s :: d :: r3.takeWhile Char.isDigit,
                  r3.dropWhile Char.isDigit)
              else none
            | [] => none
          else if s.isDigit then
            some (c :: s :: r2.takeWhile Char.isDigit,
              r2.dropWhile Char.isDigit)
          else none
        | [] => none
      else none) := rfl

theorem parseExpPart_cons2 (c s : Char) (r2 : List Char) :
    parseExpPart (c :: s :: r2) =
      (if c = 'e' || c = 'E' then
        if s = '+' || s = '-' then
          match r2 with
          | d :: r3 =>
            if d.isDigit then
              some (c :: s :: d :: r3.takeWhile Char.isDigit,
                r3.dropWhile Char.isDigit)
            else none
          | [] => none
        else if s.isDigit then
          some (c :: s :: r2.takeWhile Char.isDigit,
            r2.dropWhile Char.isDigit)
        else none
      else none) := rfl

theorem parseExpPart_ext {ext : List Char} (hs : headSafe ext = true)
    (cs : List Char) :
    parseExpPart (cs ++ ext) =
      (parseExpPart cs).map (fun p => (p.1, p.2 ++ ext)) := by
  have hstop : ∀ c, ext.head? = some c → Char.isDigit c = false :=
    fun c hc => (headSafe_head_not hs hc).1
  rcases cs with _ | ⟨c, r⟩
  · rw [List.nil_append]
    cases hext : ext with
    | nil => rfl
    | cons e r' =>
      subst hext
      rcases headSafe_cases hs rfl with h | h | h | h <;> subst h <;> rfl
  · rcases r with _ | ⟨s, r2⟩
    · simp only [List.cons_append, List.nil_append]
      have l2 : parseExpPart [c] = none := by
        rw [parseExpPart_cons]
        split <;> rfl
      rw [l2]
      cases hext : ext with
      | nil => exact l2
      | cons e r' =>
        subst hext
        rcases headSafe_cases hs rfl with h | h | h | h <;> subst h <;>
          · rw [parseExpPart_cons2]
            split <;> rfl
    · simp only [List.cons_append]
      rw [parseExpPart_cons2, parseExpPart_cons2]
      by_cases hce : (c = 'e' || c = 'E') = true
      case neg => rw [if_neg hce, if_neg hce]; rfl
      case pos =>
        rw [if_pos hce, if_pos hce]
        by_cases hs2 : (s = '+' || s = '-') = true
        case pos =>
          rw [if_pos hs2, if_pos hs2]
          rcases r2 with _ | ⟨d, r3⟩
          · rw [List.nil_append]
            cases hext : ext with
            | nil => rfl
            | cons d' r'' =>
              subst hext
              rcases headSafe_cases hs rfl with h | h | h | h <;> subst h <;>
                rfl
          · show (if d.isDigit then
                some (c :: s :: d :: (r3 ++ ext).takeWhile Char.isDigit,
                  (r3 ++ ext).dropWhile Char.isDigit)
              else none) =
              ((if d.isDigit then
                some (c :: s :: d :: r3.takeWhile Char.isDigit,
                  r3.dropWhile Char.isDigit)
              else none).map fun p => (p.1, p.2 ++ ext))
            by_cases hd : d.isDigit
            · rw [if_pos hd, if_pos hd, takeWhile_append_stop hstop,
                dropWhile_append_stop hstop]
              rfl
            · rw [if_neg hd, if_neg hd]
              rfl
        case neg =>
          rw [if_neg hs2, if_neg hs2]
          by_cases hsd : s.isDigit
          · rw [if_pos hsd, if_pos hsd, takeWhile_append_stop hstop,
              dropWhile_append_stop hstop]
            rfl
          · rw [if_neg hsd, if_neg hsd]
            rfl

theorem fracOr_ext {ext : List Char} (hs : headSafe ext = true)
    (r1 : List Char) :
    fracOr (r1 ++ ext) = ((fracOr r1).1, (fracOr r1).2 ++ ext) := by
  cases hp : parseFracPart r1 with
  | none => simp [fracOr, parseFracPart_ext hs, hp]
  | some p =>
    rcases p with ⟨f, r⟩
    simp [fracOr, parseFracPart_ext hs, hp]

theorem expOr_ext {ext : List Char} (hs : headSafe ext = true)
    (r2 : List Char) :
    expOr (r2 ++ ext) = ((expOr r2).1, (expOr r2).2 ++ ext) := by
  cases hp : parseExpPart r2 with
  | none => simp [expOr, parseExpPart_ext hs, hp]
  | some p =>
    rcases p with ⟨e, r⟩
    simp [expOr, parseExpPart_ext hs, hp]

theorem parseJNumber_ext {ext : List Char} (hs : headSafe ext = true)
    (cs : List Char) :
    parseJNumber (cs ++ ext) =
      (parseJNumber cs).map (fun p => (p.1, p.2 ++ ext)) := by
  simp only [parseJNumber, splitSign_ext hs, parseIntDigits_ext hs]
  cases hint : parseIntDigits (splitSign cs).2 with
  | none => rfl
  | some p =>
    rcases p with ⟨ids, r1⟩
    simp only [Option.map_some']
    simp only [fracOr_ext hs, expOr_ext hs]
    by_cases hcond : ((fracOr r1).1.isEmpty && (expOr (fracOr r1).2).1.isEmpty) = true
    · rw [if_pos hcond, if_pos hcond]
      rfl
    · rw [if_neg hcond, if_neg hcond]
      rfl

theorem map_cons_ext {ext : List Char} {fuel extra : Nat}
    (ih : ∀ extra cs s r, parseJStringF fuel cs = some (s, r) →
      parseJStringF (fuel + extra) (cs ++ ext) = some (s, r ++ ext))
    {r2 s r : List Char} (k : List Char → List Char)
    (h2 : Option.map (fun p => (k p.1, p.2)) (parseJStringF fuel r2) =
      some (s, r)) :
    Option.map (fun p => (k p.1, p.2)) (parseJStringF (fuel + extra) (r2 ++ ext)) =
      some (s, r ++ ext) := by
  obtain ⟨p, hp, he⟩ := Option.map_eq_some'.mp h2
  injection he with he1 he2
  rw [ih extra r2 p.1 p.2 (by rw [hp])]
  subst he2
  rw [← he1]
  rfl

theorem parseJStringF_ext (ext : List Char) :
    ∀ fuel extra cs s r, parseJStringF fuel cs = some (s, r) →
      parseJStringF (fuel + extra) (cs ++ ext) = some (s, r ++ ext) := by
  intro fuel
  induction fuel with
  | zero =>
    intro extra cs s r h
    cases cs <;> exact Option.noConfusion h
  | succ fuel ih =>
    intro extra cs s r h
    match cs with
    | [] => exact Option.noConfusion h
    | c :: rest =>
      rw [List.cons_append, Nat.add_right_comm fuel 1 extra]
      by_cases hq : c = '"'
      · subst hq
        rw [show parseJStringF (fuel + 1) ('"' :: rest) = some ([], rest)
          from rfl] at h
        cases h
        rfl
      · by_cases hb : c = '\\'
        · subst hb
          match rest with
          | [] => exact Option.noConfusion h
          | e :: r2 =>
            rw [parseJStringF_esc] at h
            rw [List.cons_append, parseJStringF_esc]
            by_cases he1 : e = '"'
            · rw [if_pos he1] at h
              rw [if_pos he1]
              exact map_cons_ext ih _ h
            · rw [if_neg he1] at h
              rw [if_neg he1]
              by_cases he2 : e = '\\'
              · rw [if_pos he2] at h
                rw [if_pos he2]
                exact map_cons_ext ih _ h
              · rw [if_neg he2] at h
                rw [if_neg he2]
                by_cases he3 : e = '/'
                · rw [if_pos he3] at h
                  rw [if_pos he3]
                  exact map_cons_ext ih _ h
                · rw [if_neg he3] at h
                  rw [if_neg he3]
                  by_cases he4 : e = 'b'
                  · rw [if_pos he4] at h
                    rw [if_pos he4]
                    exact map_cons_ext ih _ h
                  · rw [if_neg he4] at h
                    rw [if_neg he4]
                    by_cases he5 : e = 'f'
                    · rw [if_pos he5] at h
                      rw [if_pos he5]
                      exact map_cons_ext ih _ h
                    · rw [if_neg he5] at h
                      rw [if_neg he5]
                      by_cases he6 : e = 'n'
                      · rw [if_pos he6] at h
                        rw [if_pos he6]
                        exact map_cons_ext ih _ h
                      · rw [if_neg he6] at h
                        rw [if_neg he6]
                        by_cases he7 : e = 'r'
                        · rw [if_pos he7] at h
                          rw [if_pos he7]
                          exact map_cons_ext ih _ h
                        · rw [if_neg he7] at h
                          rw [if_neg he7]
                          by_cases he8 : e = 't'
                          · rw [if_pos he8] at h
                            rw [if_pos he8]
                            exact map_cons_ext ih _ h
                          · rw [if_neg he8] at h
                            rw [if_neg he8]
                            by_cases he9 : e = 'u'
                            · rw [if_pos he9] at h
                              rw [if_pos he9]
                              split at h
                              next x1 x2 x3 x4 r3 =>
                                split at h
                                next a b cc d hq1 hq2 hq3 hq4 =>
                                  rw [show (x1 :: x2 :: x3 :: x4 :: r3) ++ ext =
                                    x1 :: x2 :: x3 :: x4 :: (r3 ++ ext) from rfl]
                                  show (match hexVal x1, hexVal x2, hexVal x3,
                                      hexVal x4 with
                                    | some a, some b, some cc, some d =>
                                      (fun p =>
                                        (Char.ofNat
                                          (((a * 16 + b) * 16 + cc) * 16 + d) ::
                                            p.1, p.2)) <$>
                                        parseJStringF (fuel + extra) (r3 ++ ext)
                                    | _, _, _, _ => none) = some (s, r ++ ext)
                                  rw [hq1, hq2, hq3, hq4]
                                  exact map_cons_ext ih _ h
                                next => exact Option.noConfusion h
                              next => exact Option.noConfusion h
                            · rw [if_neg he9] at h
                              exact Option.noConfusion h
        · rw [parseJStringF_step, if_neg hq, if_neg hb] at h
          rw [parseJStringF_step, if_neg hq, if_neg hb]
          by_cases hn : c.toNat < 32
          · rw [if_pos hn] at h
            exact Option.noConfusion h
          · rw [if_neg hn] at h
            rw [if_neg hn]
            exact map_cons_ext ih _ h

theorem parseJString_ext {ext cs s r : List Char}
    (h : parseJString cs = some (s, r)) :
    parseJString (cs ++ ext) = some (s, r ++ ext) := by
  unfold parseJString at h ⊢
  have h2 := parseJStringF_ext ext (cs.length + 1) ext.length cs s r h
  rwa [show cs.length + 1 + ext.length = (cs ++ ext).length + 1 by
    rw [List.length_append]; omega] at h2

/-- Extension property of the scanner family: a successful parse of
`cs` is unchanged when text starting with a separator character is
appended, with the appended text glued onto the remainder. -/
theorem parser_ext {ext : List Char} (hsafe : headSafe ext = true) :
    ∀ fuel extra : Nat,
    (∀ cs v rs, parseValue fuel cs = some (v, rs) →
      parseValue (fuel + extra) (cs ++ ext) = some (v, rs ++ ext)) ∧
    (∀ cs v rs, parseObjBody fuel cs = some (v, rs) →
      parseObjBody (fuel + extra) (cs ++ ext) = some (v, rs ++ ext)) ∧
    (∀ cs m rs, parseMembers fuel cs = some (m, rs) →
      parseMembers (fuel + extra) (cs ++ ext) = some (m, rs ++ ext)) ∧
    (∀ cs v rs, parseArrBody fuel cs = some (v, rs) →
      parseArrBody (fuel + extra) (cs ++ ext) = some (v, rs ++ ext)) ∧
    (∀ cs es rs, parseElems fuel cs = some (es, rs) →
      parseElems (fuel + extra) (cs ++ ext) = some (es, rs ++ ext)) := by
  intro fuel
  induction fuel with
  | zero =>
    intro extra
    refine ⟨?_, ?_, ?_, ?_, ?_⟩ <;>
      · intro cs v rs h
        exact Option.noConfusion h
  | succ fuel ih =>
    intro extra
    obtain ⟨ihV, ihO, ihM, ihA, ihE⟩ := ih extra
    have hkw : ∀ (p : List Char) (c : Char) (rest : List Char),
        ',' ∉ p → ']' ∉ p → '}' ∉ p → ' ' ∉ p →
        p.isPrefixOf (c :: (rest ++ ext)) = p.isPrefixOf (c :: rest) := by
      intro p c rest h1 h2 h3 h4
      rw [← List.cons_append]
      exact kwPrefixOf_append hsafe p (c :: rest) ⟨h1, h2, h3, h4⟩
    refine ⟨?_, ?_, ?_, ?_, ?_⟩
    · -- parseValue
      intro cs v rs h
      match cs with
      | [] => exact Option.noConfusion h
      | c :: rest =>
        rw [parseValue_step] at h
        rw [List.cons_append, Nat.add_right_comm fuel 1 extra, parseValue_step]
        by_cases hq : c = '"'
        · rw [if_pos hq] at h
          rw [if_pos hq]
          obtain ⟨p, hp, he⟩ := Option.map_eq_some'.mp h
          injection he with he1 he2
          rw [parseJString_ext (show parseJString rest = some (p.1, p.2)
            by rw [hp])]
          subst he2
          rw [← he1]
          rfl
        · rw [if_neg hq] at h
          rw [if_neg hq]
          by_cases hob : c = '{'
          · rw [if_pos hob] at h
            rw [if_pos hob]
            by_cases hne : rest.dropWhile isJsonWs = []
            · rw [hne, parseObjBody_nil] at h
              exact Option.noConfusion h
            · rw [dropWhile_append_ne _ rest ext hne]
              exact ihO _ v rs h
          · rw [if_neg hob] at h
            rw [if_neg hob]
            by_cases har : c = '['
            · rw [if_pos har] at h
              rw [if_pos har]
              by_cases hne : rest.dropWhile isJsonWs = []
              · rw [hne, parseArrBody_nil] at h
                exact Option.noConfusion h
              · rw [dropWhile_append_ne _ rest ext hne]
                exact ihA _ v rs h
            · rw [if_neg har] at h
              rw [if_neg har]
              rw [hkw ['n', 'u', 'l', 'l'] c rest (by decide) (by decide)
                (by decide) (by decide)]
              by_cases hnull : (['n', 'u', 'l', 'l'].isPrefixOf (c :: rest)) = true
              · rw [if_pos hnull] at h
                rw [if_pos hnull]
                cases h
                have hlen : 3 ≤ rest.length := by
                  have h9 := isPrefixOf_length_le hnull
                  simp only [List.length_cons] at h9
                  omega
                rw [drop_append_le 3 rest ext hlen]
              · rw [if_neg hnull] at h
                rw [if_neg hnull]
                rw [hkw ['t', 'r', 'u', 'e'] c rest (by decide) (by decide)
                  (by decide) (by decide)]
                by_cases htr : (['t', 'r', 'u', 'e'].isPrefixOf (c :: rest)) = true
                · rw [if_pos htr] at h
                  rw [if_pos htr]
                  cases h
                  have hlen : 3 ≤ rest.length := by
                    have h9 := isPrefixOf_length_le htr
                    simp only [List.length_cons] at h9
                    omega
                  rw [drop_append_le 3 rest ext hlen]
                · rw [if_neg htr] at h
                  rw [if_neg htr]
                  rw [hkw ['f', 'a', 'l', 's', 'e'] c rest (by decide) (by decide)
                    (by decide) (by decide)]
                  by_cases hfa : (['f', 'a', 'l', 's', 'e'].isPrefixOf
                      (c :: rest)) = true
                  · rw [if_pos hfa] at h
                    rw [if_pos hfa]
                    cases h
                    have hlen : 4 ≤ rest.length := by
                      have h9 := isPrefixOf_length_le hfa
                      simp only [List.length_cons] at h9
                      omega
                    rw [drop_append_le 4 rest ext hlen]
                  · rw [if_neg hfa] at h
                    rw [if_neg hfa]
                    split at h
                    next r0 heq =>
                      injection h with h3
                      rw [show c :: (rest ++ ext) = (c :: rest) ++ ext from rfl,
                        parseJNumber_ext hsafe (c :: rest), heq]
                      show some (r0.1, r0.2 ++ ext) = some (v, rs ++ ext)
                      rw [h3]
                    next heq =>
                      rw [show c :: (rest ++ ext) = (c :: rest) ++ ext from rfl,
                        parseJNumber_ext hsafe (c :: rest), heq]
                      show (if ['N', 'a', 'N'].isPrefixOf (c :: (rest ++ ext)) then
                          some (Json.floatLit ['N', 'a', 'N'], (rest ++ ext).drop 2)
                        else if ['I', 'n', 'f', 'i', 'n', 'i', 't', 'y'].isPrefixOf
                            (c :: (rest ++ ext)) then
                          some (Json.floatLit ['I', 'n', 'f'], (rest ++ ext).drop 7)
                        else if ['-', 'I', 'n', 'f', 'i', 'n', 'i', 't',
                            'y'].isPrefixOf (c :: (rest ++ ext)) then
                          some (Json.floatLit ['-', 'I', 'n', 'f'],
                            (rest ++ ext).drop 8)
                        else none) = some (v, rs ++ ext)
                      rw [hkw ['N', 'a', 'N'] c rest (by decide) (by decide)
                        (by decide) (by decide)]
                      by_cases hna : (['N', 'a', 'N'].isPrefixOf (c :: rest)) = true
                      · rw [if_pos hna] at h
                        rw [if_pos hna]
                        cases h
                        have hlen : 2 ≤ rest.length := by
                          have h9 := isPrefixOf_length_le hna
                          simp only [List.length_cons] at h9
                          omega
                        rw [drop_append_le 2 rest ext hlen]
                      · rw [if_neg hna] at h
                        rw [if_neg hna]
                        rw [hkw ['I', 'n', 'f', 'i', 'n', 'i', 't', 'y'] c rest
                          (by decide) (by decide) (by decide) (by decide)]
                        by_cases hin : (['I', 'n', 'f', 'i', 'n', 'i', 't',
                            'y'].isPrefixOf (c :: rest)) = true
                        · rw [if_pos hin] at h
                          rw [if_pos hin]
                          cases h
                          have hlen : 7 ≤ rest.length := by
                            have h9 := isPrefixOf_length_le hin
                            simp only [List.length_cons] at h9
                            omega
                          rw [drop_append_le 7 rest ext hlen]
                        · rw [if_neg hin] at h
                          rw [if_neg hin]
                          rw [hkw ['-', 'I', 'n', 'f', 'i', 'n', 'i', 't', 'y']
                            c rest (by decide) (by decide) (by decide) (by decide)]
                          by_cases hmi : (['-', 'I', 'n', 'f', 'i', 'n', 'i', 't',
                              'y'].isPrefixOf (c :: rest)) = true
                          · rw [if_pos hmi] at h
                            rw [if_pos hmi]
                            cases h
                            have hlen : 8 ≤ rest.length := by
                              have h9 := isPrefixOf_length_le hmi
                              simp only [List.length_cons] at h9
                              omega
                            rw [drop_append_le 8 rest ext hlen]
                          · rw [if_neg hmi] at h
                            exact Option.noConfusion h
    · -- parseObjBody
      intro cs v rs h
      match cs with
      | [] => exact Option.noConfusion h
      | c :: rest =>
        rw [parseObjBody_step] at h
        rw [List.cons_append, Nat.add_right_comm fuel 1 extra, parseObjBody_step]
        by_cases hc : c = '}'
        · rw [if_pos hc] at h
          rw [if_pos hc]
          cases h
          rfl
        · rw [if_neg hc] at h
          rw [if_neg hc]
          obtain ⟨p, hp, he⟩ := Option.map_eq_some'.mp h
          injection he with he1 he2
          rw [← List.cons_append, ihM _ p.1 p.2 (by rw [hp])]
          subst he2
          rw [← he1]
          rfl
    · -- parseMembers
      intro cs m rs h
      match cs with
      | [] => exact Option.noConfusion h
      | c0 :: r0 =>
        rw [parseMembers_step] at h
        rw [List.cons_append, Nat.add_right_comm fuel 1 extra, parseMembers_step]
        by_cases hc0 : c0 = '"'
        case neg =>
          rw [if_neg hc0] at h
          exact Option.noConfusion h
        case pos =>
        rw [if_pos hc0] at h
        rw [if_pos hc0]
        split at h
        · exact Option.noConfusion h
        next key r1 heqs =>
          rw [parseJString_ext heqs]
          split
          next hne0 => exact Option.noConfusion hne0
          next key2 r1x heqx =>
            injection heqx with heqx'
            injection heqx' with hk hr
            subst hk
            subst hr
            split at h
            · exact Option.noConfusion h
            next c1 r2 heq1 =>
              rw [dropWhile_append_ne isJsonWs r1 ext
                (by rw [heq1]; exact fun hx => List.noConfusion hx), heq1,
                List.cons_append]
              split
              next hne1 => exact List.noConfusion hne1.symm
              next c1x r2x heqy =>
                injection heqy with hk1 hr1
                subst hk1
                subst hr1
                by_cases hcol : c1 = ':'
                case neg =>
                  rw [if_neg hcol] at h
                  exact Option.noConfusion h
                case pos =>
                rw [if_pos hcol] at h
                rw [if_pos hcol]
                split at h
                · exact Option.noConfusion h
                next v r3 heqv =>
                  by_cases hne2 : r2.dropWhile isJsonWs = []
                  · rw [hne2, parseValue_nil] at heqv
                    exact Option.noConfusion heqv
                  · rw [dropWhile_append_ne isJsonWs r2 ext hne2,
                      ihV _ v r3 heqv]
                    split
                    next hne3 => exact Option.noConfusion hne3
                    next v2 r3x heqz =>
                      injection heqz with heqz'
                      injection heqz' with hv2 hr3
                      subst hv2
                      subst hr3
                      split at h
                      · exact Option.noConfusion h
                      next c2 r4 heq2 =>
                        rw [dropWhile_append_ne isJsonWs r3 ext
                          (by rw [heq2]; exact fun hx => List.noConfusion hx),
                          heq2, List.cons_append]
                        split
                        next hne5 => exact List.noConfusion hne5.symm
                        next c2x r4x heqw =>
                          injection heqw with hk2 hr2
                          subst hk2
                          subst hr2
                          by_cases hc2 : c2 = '}'
                          · rw [if_pos hc2] at h
                            rw [if_pos hc2]
                            cases h
                            rfl
                          · rw [if_neg hc2] at h
                            rw [if_neg hc2]
                            by_cases hc2b : c2 = ','
                            case neg =>
                              rw [if_neg hc2b] at h
                              exact Option.noConfusion h
                            case pos =>
                            rw [if_pos hc2b] at h
                            rw [if_pos hc2b]
                            obtain ⟨p, hp, he⟩ := Option.map_eq_some'.mp h
                            injection he with he1 he2
                            by_cases hne4 : r4.dropWhile isJsonWs = []
                            · rw [hne4, parseMembers_nil] at hp
                              exact Option.noConfusion hp
                            · rw [dropWhile_append_ne isJsonWs r4 ext hne4,
                                ihM _ p.1 p.2 (by rw [hp])]
                              subst he2
                              rw [← he1]
                              rfl
    · -- parseArrBody
      intro cs v rs h
      match cs with
      | [] =>
        rw [parseArrBody_nil] at h
        exact Option.noConfusion h
      | c :: rest =>
        rw [parseArrBody_step] at h
        rw [List.cons_append, Nat.add_right_comm fuel 1 extra, parseArrBody_step]
        by_cases hc : c = ']'
        · rw [if_pos hc] at h
          rw [if_pos hc]
          cases h
          rfl
        · rw [if_neg hc] at h
          rw [if_neg hc]
          obtain ⟨p, hp, he⟩ := Option.map_eq_some'.mp h
          injection he with he1 he2
          rw [← List.cons_append, ihE _ p.1 p.2 (by rw [hp])]
          subst he2
          rw [← he1]
          rfl
    · -- parseElems
      intro cs es rs h
      rw [parseElems_step] at h
      rw [Nat.add_right_comm fuel 1 extra, parseElems_step]
      split at h
      · exact Option.noConfusion h
      next v r1 heqv =>
        rw [ihV _ v r1 heqv]
        split
        next hne0 => exact Option.noConfusion hne0
        next v2 r1x heqx =>
          injection heqx with heqx'
          injection heqx' with hv2 hr1
          subst hv2
          subst hr1
          split at h
          · exact Option.noConfusion h
          next c1 r2 heq1 =>
            rw [dropWhile_append_ne isJsonWs r1 ext
              (by rw [heq1]; exact fun hx => List.noConfusion hx), heq1,
              List.cons_append]
            split
            next hne1 => exact List.noConfusion hne1.symm
            next c1x r2x heqy =>
              injection heqy with hk1 hr2
              subst hk1
              subst hr2
              by_cases hc1 : c1 = ']'
              · rw [if_pos hc1] at h
                rw [if_pos hc1]
                cases h
                rfl
              · rw [if_neg hc1] at h
                rw [if_neg hc1]
                by_cases hc1b : c1 = ','
                case neg =>
                  rw [if_neg hc1b] at h
                  exact Option.noConfusion h
                case pos =>
                rw [if_pos hc1b] at h
                rw [if_pos hc1b]
                obtain ⟨p, hp, he⟩ := Option.map_eq_some'.mp h
                injection he with he1 he2
                by_cases hne : r2.dropWhile isJsonWs = []
                · rw [hne, parseElems_nil] at hp
                  exact Option.noConfusion hp
                · rw [dropWhile_append_ne isJsonWs r2 ext hne,
                    ihE _ p.1 p.2 (by rw [hp])]
                  subst he2
                  rw [← he1]
                  rfl

/-! ### Pipeline lemmas for the fence, locator and cascade stages -/

theorem ticks_not_prefixOf {c : Char} (rest : List Char) (hc : ¬ c = btick) :
    ticks.isPrefixOf (c :: rest) = false := by
  have hb : (btick == c) = false := by
    cases hbc : btick == c with
    | false => rfl
    | true => exact absurd (eq_of_beq hbc).symm hc
  simp [ticks, List.isPrefixOf, hb]

theorem mdSearch_step (c : Char) (rest : List Char) :
    mdSearch (c :: rest) =
      (if ticks.isPrefixOf (c :: rest) then
        match fenceContent
            ((if ['j', 's', 'o', 'n'].isPrefixOf (rest.drop 2) then
                (rest.drop 2).drop 4
              else rest.drop 2).dropWhile isPyWs) with
        | some content => some content
        | none => mdSearch rest
      else mdSearch rest) := rfl

theorem mdSearch_none : ∀ {cs : List Char}, btick ∉ cs → mdSearch cs = none := by
  intro cs h
  induction cs with
  | nil => rfl
  | cons c rest ih =>
    have hc : ¬ c = btick := by
      intro he
      subst he
      exact h (List.mem_cons_self _ _)
    rw [mdSearch_step, ticks_not_prefixOf rest hc]
    simp only [Bool.false_eq_true, if_false]
    exact ih (fun hm => h (List.mem_cons_of_mem c hm))

theorem fenceContent_step (c : Char) (rest : List Char) :
    fenceContent (c :: rest) =
      (if c = '\n' && ticks.isPrefixOf rest then some []
       else if ticks.isPrefixOf (c :: rest) then some []
       else (fun t => c :: t) <$> fenceContent rest) := rfl

theorem fenceContent_close : ∀ (s : List Char), btick ∉ s →
    fenceContent (s ++ '\n' :: ticks) = some s := by
  intro s
  induction s with
  | nil => intro _; rfl
  | cons c s ih =>
    intro h
    have hc : ¬ c = btick := by
      intro he
      subst he
      exact h (List.mem_cons_self _ _)
    have hns : btick ∉ s := fun hm => h (List.mem_cons_of_mem c hm)
    rw [List.cons_append, fenceContent_step]
    have hcond1 : (c = '\n' && ticks.isPrefixOf (s ++ '\n' :: ticks)) = false := by
      by_cases hcn : c = '\n'
      · have h2 : ticks.isPrefixOf (s ++ '\n' :: ticks) = false := by
          cases s with
          | nil =>
            rw [List.nil_append]
            exact ticks_not_prefixOf ticks (by decide)
          | cons d s2 =>
            rw [List.cons_append]
            have hd : ¬ d = btick := by
              intro he
              subst he
              exact hns (List.mem_cons_self _ _)
            exact ticks_not_prefixOf _ hd
        simp [h2]
      · simp [hcn]
    rw [hcond1, ticks_not_prefixOf _ hc]
    simp only [Bool.false_eq_true, if_false]
    rw [ih hns]
    rfl

theorem mdSearch_wrapper (R : List Char) :
    mdSearch (btick :: btick :: btick :: 'j' :: 's' :: 'o' :: 'n' :: '\n' :: R) =
      (match fenceContent (R.dropWhile isPyWs) with
       | some content => some content
       | none =>
         mdSearch (btick :: btick :: 'j' :: 's' :: 'o' :: 'n' :: '\n' :: R)) := rfl

theorem trimPy_eq_self {cs : List Char}
    (h1 : ∀ c, cs.head? = some c → isPyWs c = false)
    (h2 : ∀ c, cs.getLast? = some c → isPyWs c = false) : trimPy cs = cs := by
  unfold trimPy
  rw [head_not_dropWhile h1,
    head_not_dropWhile (fun c hc => h2 c (by rwa [List.head?_reverse] at hc)),
    List.reverse_reverse]

theorem chooseStart_head {t : List Char} {c : Char} {rest : List Char}
    (ht : t = c :: rest) (hc : c = '{' ∨ c = '[') :
    chooseStart (t.findIdx? fun x => x = '{') (t.findIdx? fun x => x = '[') =
      some 0 := by
  subst ht
  rcases hc with hc | hc
  · subst hc
    rw [List.findIdx?_cons, if_pos (by decide), List.findIdx?_cons,
      if_neg (by decide), List.findIdx?_succ]
    cases hk : rest.findIdx? (fun x => x = '[') with
    | none => rfl
    | some k => simp [chooseStart]
  · subst hc
    rw [List.findIdx?_cons, if_neg (by decide), List.findIdx?_cons,
      if_pos (by decide), List.findIdx?_succ]
    cases hk : rest.findIdx? (fun x => x = '{') with
    | none => rfl
    | some k => simp [chooseStart]

theorem extractJsonCore_loads {cs0 : List Char} {v : Json} {i : Nat}
    (hne : cs0.isEmpty = false)
    (hcs : chooseStart ((fenceStage cs0).findIdx? fun c => c = '{')
      ((fenceStage cs0).findIdx? fun c => c = '[') = some i)
    (hld : jsonLoads (preprocessed (trimPy ((fenceStage cs0).drop i))) = some v) :
    extractJsonCore cs0 = some v := by
  unfold extractJsonCore
  simp only [hne, Bool.false_eq_true, if_false]
  rw [hcs]
  split
  next h0 => exact Option.noConfusion h0
  next i2 heqi =>
    injection heqi with hi
    subst hi
    rw [hld]

theorem extractJsonCore_raw {cs0 : List Char} {v : Json} {i : Nat}
    (hne : cs0.isEmpty = false)
    (hcs : chooseStart ((fenceStage cs0).findIdx? fun c => c = '{')
      ((fenceStage cs0).findIdx? fun c => c = '[') = some i)
    (hld : jsonLoads (preprocessed (trimPy ((fenceStage cs0).drop i))) = none)
    (hrd : rawDecodeFst
      (subR4 (preprocessed (trimPy ((fenceStage cs0).drop i)))) = some v) :
    extractJsonCore cs0 = some v := by
  unfold extractJsonCore
  simp only [hne, Bool.false_eq_true, if_false]
  rw [hcs]
  split
  next h0 => exact Option.noConfusion h0
  next i2 heqi =>
    injection heqi with hi
    subst hi
    rw [hld]
    split
    next v2 heqv => exact Option.noConfusion heqv
    next heqv =>
      rw [hrd]

/-- C8 amended: wrapping a serialization in a markdown fence is
transparent whenever the preprocessing pipeline is: for every value `V`
and serialization `s = json.dumps(V)` that contains no backtick, starts
with its structural brace or bracket, is left unchanged by `strip`,
comment stripping and the three unconditional key repairs, and parses
strictly back to `V`, feeding the fenced text to `extract_json` returns
`V`.  (The counterexample shows the unconditional caveats are real: a
string value containing a triple backtick defeats the non-greedy fence
pattern and extraction fails.) -/
theorem claim_C8 (V : Json) (s : List Char)
    (hdump : s = dumpsVal V)
    (hbt : btick ∉ s)
    (hh : s.head? = some '{' ∨ s.head? = some '[')
    (htr : trimPy s = s)
    (hst : strip_comments s = s)
    (h1 : subR1 s = s) (h2 : subR2 s = s) (h3 : subR3 s = s)
    (hload : jsonLoads s = some V) :
    extract_json (String.mk (btick :: btick :: btick :: 'j' :: 's' :: 'o' ::
      'n' :: '\n' :: (s ++ '\n' :: ticks))) = some V := by
  rcases s with _ | ⟨c0, s1⟩
  · rcases hh with hh | hh <;> exact Option.noConfusion hh
  have hc0 : c0 = '{' ∨ c0 = '[' := by
    rcases hh with hh | hh
    · exact Or.inl (by injection hh)
    · exact Or.inr (by injection hh)
  have hc0w : isPyWs c0 = false := by
    rcases hc0 with h | h <;> subst h <;> decide
  show extractJsonCore (btick :: btick :: btick :: 'j' :: 's' :: 'o' :: 'n' ::
    '\n' :: ((c0 :: s1) ++ '\n' :: ticks)) = some V
  have htrL : trimPy (btick :: btick :: btick :: 'j' :: 's' :: 'o' :: 'n' ::
      '\n' :: ((c0 :: s1) ++ '\n' :: ticks)) =
      btick :: btick :: btick :: 'j' :: 's' :: 'o' :: 'n' ::
        '\n' :: ((c0 :: s1) ++ '\n' :: ticks) := by
    refine trimPy_eq_self ?_ ?_
    · intro c hc
      have hc2 : some btick = some c := hc
      injection hc2 with hc3
      subst hc3
      decide
    · intro c hc
      have h9 := List.getLast?_append_cons
        (btick :: btick :: btick :: 'j' :: 's' :: 'o' :: 'n' :: '\n' :: c0 :: s1)
        '\n' ticks
      have h10 : (btick :: btick :: btick :: 'j' :: 's' :: 'o' :: 'n' ::
          '\n' :: ((c0 :: s1) ++ '\n' :: ticks)).getLast? = some btick :=
        h9.trans (by decide)
      rw [h10] at hc
      injection hc with hc3
      subst hc3
      decide
  have hmd : mdSearch (btick :: btick :: btick :: 'j' :: 's' :: 'o' :: 'n' ::
      '\n' :: ((c0 :: s1) ++ '\n' :: ticks)) = some (c0 :: s1) := by
    rw [mdSearch_wrapper]
    have hdw : ((c0 :: s1) ++ '\n' :: ticks).dropWhile isPyWs =
        (c0 :: s1) ++ '\n' :: ticks := by
      refine head_not_dropWhile ?_
      intro c hc
      have hc2 : some c0 = some c := hc
      injection hc2 with hc3
      subst hc3
      exact hc0w
    rw [hdw, fenceContent_close (c0 :: s1) hbt]
  have hfs : fenceStage (btick :: btick :: btick :: 'j' :: 's' :: 'o' :: 'n' ::
      '\n' :: ((c0 :: s1) ++ '\n' :: ticks)) = c0 :: s1 := by
    show (match mdSearch (trimPy (btick :: btick :: btick :: 'j' :: 's' :: 'o' ::
        'n' :: '\n' :: ((c0 :: s1) ++ '\n' :: ticks))) with
      | some g => trimPy g
      | none =>
        if ticks.isPrefixOf (trimPy (btick :: btick :: btick :: 'j' :: 's' ::
            'o' :: 'n' :: '\n' :: ((c0 :: s1) ++ '\n' :: ticks))) then
          subFenceEnd (subFenceStart (trimPy (btick :: btick :: btick :: 'j' ::
            's' :: 'o' :: 'n' :: '\n' :: ((c0 :: s1) ++ '\n' :: ticks))))
        else trimPy (btick :: btick :: btick :: 'j' :: 's' :: 'o' :: 'n' ::
          '\n' :: ((c0 :: s1) ++ '\n' :: ticks))) = c0 :: s1
    rw [htrL, hmd]
    show trimPy (c0 :: s1) = c0 :: s1
    exact htr
  have hcs : chooseStart ((fenceStage (btick :: btick :: btick :: 'j' :: 's' ::
        'o' :: 'n' :: '\n' :: ((c0 :: s1) ++ '\n' :: ticks))).findIdx?
          fun c => c = '{')
      ((fenceStage (btick :: btick :: btick :: 'j' :: 's' :: 'o' :: 'n' ::
        '\n' :: ((c0 :: s1) ++ '\n' :: ticks))).findIdx? fun c => c = '[') =
      some 0 := by
    rw [hfs]
    exact chooseStart_head rfl hc0
  refine extractJsonCore_loads rfl hcs ?_
  rw [hfs, List.drop_zero, htr]
  unfold preprocessed
  rw [hst, h1, h2, h3, hload]

theorem claim_C8_witness :
    extract_json (String.mk (btick :: btick :: btick :: 'j' :: 's' :: 'o' ::
      'n' :: '\n' :: (("\x7b\"a\": 1\x7d").data ++ '\n' :: ticks))) =
      some (Json.obj [(("a").data, Json.num 1)]) :=
  claim_C8 (Json.obj [(("a").data, Json.num 1)]) (("\x7b\"a\": 1\x7d").data)
    rfl (by decide) (Or.inl rfl) rfl rfl rfl rfl rfl rfl

/-- C6 amended: when a text is two disjoint complete JSON objects
separated by a space and the preprocessing pipeline leaves the text
unchanged (no backtick, no stripped whitespace, comment stripping and
all four repairs are the identity on it), `extract_json` returns the
first object and discards the second: the first attempt `json.loads`
fails on the trailing second object, and the `raw_decode` of attempt 2
prefix-decodes exactly the first object.  (The counterexample shows the
transparency caveat is real: when a string value of the first object
contains a comma-word-colon pattern, the unconditional key repair
corrupts it and extraction returns nothing at all.) -/
theorem claim_C6 (s1 s2 : List Char) (v1 v2 : Json)
    (hd1 : rawDecode s1 = some (v1, []))
    (hd2 : rawDecode s2 = some (v2, []))
    (hh1 : s1.head? = some '{') (hh2 : s2.head? = some '{')
    (hbt : btick ∉ s1 ++ ' ' :: s2)
    (htr : trimPy (s1 ++ ' ' :: s2) = s1 ++ ' ' :: s2)
    (hst : strip_comments (s1 ++ ' ' :: s2) = s1 ++ ' ' :: s2)
    (h1 : subR1 (s1 ++ ' ' :: s2) = s1 ++ ' ' :: s2)
    (h2 : subR2 (s1 ++ ' ' :: s2) = s1 ++ ' ' :: s2)
    (h3 : subR3 (s1 ++ ' ' :: s2) = s1 ++ ' ' :: s2)
    (h4 : subR4 (s1 ++ ' ' :: s2) = s1 ++ ' ' :: s2) :
    extract_json (String.mk (s1 ++ ' ' :: s2)) = some v1 := by
  rcases s1 with _ | ⟨c0, s1'⟩
  · exact Option.noConfusion hh1
  have hc0 : c0 = '{' := by injection hh1
  subst hc0
  rcases s2 with _ | ⟨d0, s2'⟩
  · exact Option.noConfusion hh2
  have hd0 : d0 = '{' := by injection hh2
  subst hd0
  show extractJsonCore (('{' :: s1') ++ ' ' :: '{' :: s2') = some v1
  have hfs : fenceStage (('{' :: s1') ++ ' ' :: '{' :: s2') =
      ('{' :: s1') ++ ' ' :: '{' :: s2' := by
    show (match mdSearch (trimPy (('{' :: s1') ++ ' ' :: '{' :: s2')) with
      | some g => trimPy g
      | none =>
        if ticks.isPrefixOf (trimPy (('{' :: s1') ++ ' ' :: '{' :: s2')) then
          subFenceEnd (subFenceStart
            (trimPy (('{' :: s1') ++ ' ' :: '{' :: s2')))
        else trimPy (('{' :: s1') ++ ' ' :: '{' :: s2')) =
      ('{' :: s1') ++ ' ' :: '{' :: s2'
    rw [htr, mdSearch_none hbt]
    show (if ticks.isPrefixOf (('{' :: s1') ++ ' ' :: '{' :: s2') then
        subFenceEnd (subFenceStart (('{' :: s1') ++ ' ' :: '{' :: s2'))
      else (('{' :: s1') ++ ' ' :: '{' :: s2')) =
      ('{' :: s1') ++ ' ' :: '{' :: s2'
    rw [show ('{' :: s1') ++ ' ' :: '{' :: s2' =
      '{' :: (s1' ++ ' ' :: '{' :: s2') from rfl,
      ticks_not_prefixOf _ (by decide)]
    simp only [Bool.false_eq_true, if_false]
  have hsafe : headSafe (' ' :: '{' :: s2') = true := rfl
  have hrawt : rawDecode (('{' :: s1') ++ ' ' :: '{' :: s2') =
      some (v1, ' ' :: '{' :: s2') := by
    unfold rawDecode at hd1 ⊢
    have hext := (parser_ext hsafe (2 * ('{' :: s1').length + 2)
      (2 * ('{' :: s2').length + 2)).1 ('{' :: s1') v1 [] hd1
    rw [show 2 * (('{' :: s1') ++ ' ' :: '{' :: s2').length + 2 =
      2 * ('{' :: s1').length + 2 + (2 * ('{' :: s2').length + 2) from by
        simp only [List.length_append, List.length_cons]
        omega]
    exact hext
  have hcs : chooseStart ((fenceStage (('{' :: s1') ++ ' ' :: '{' ::
        s2')).findIdx? fun c => c = '{')
      ((fenceStage (('{' :: s1') ++ ' ' :: '{' :: s2')).findIdx?
        fun c => c = '[') = some 0 := by
    rw [hfs]
    exact chooseStart_head (show ('{' :: s1') ++ ' ' :: '{' :: s2' =
      '{' :: (s1' ++ ' ' :: '{' :: s2') from rfl) (Or.inl rfl)
  refine extractJsonCore_raw rfl hcs ?_ ?_
  · rw [hfs, List.drop_zero, htr]
    unfold preprocessed
    rw [hst, h1, h2, h3]
    unfold jsonLoads
    rw [show (('{' :: s1') ++ ' ' :: '{' :: s2').dropWhile isJsonWs =
      ('{' :: s1') ++ ' ' :: '{' :: s2' from head_not_dropWhile (by
        intro c hc
        have hc2 : some '{' = some c := hc
        injection hc2 with hc3
        subst hc3
        decide)]
    rw [hrawt]
    have hc2 : (' ' :: '{' :: s2').dropWhile isJsonWs = '{' :: s2' := by
      rw [List.dropWhile_cons_of_pos (by decide),
        List.dropWhile_cons_of_neg (by decide)]
    split
    next v3 rest3 heqx =>
      injection heqx with heqx'
      injection heqx' with hv3 hrest3
      subst hv3
      subst hrest3
      rw [hc2, if_neg (by simp)]
    next heqx => exact Option.noConfusion heqx
  · rw [hfs, List.drop_zero, htr]
    unfold preprocessed
    rw [hst, h1, h2, h3, h4]
    unfold rawDecodeFst
    rw [hrawt]
    rfl

theorem claim_C6_witness :
    extract_json (String.mk (("\x7b\"a\": 1\x7d").data ++ ' ' ::
      ("\x7b\"b\": 2\x7d").data)) = some (Json.obj [(("a").data, Json.num 1)]) :=
  claim_C6 (("\x7b\"a\": 1\x7d").data) (("\x7b\"b\": 2\x7d").data)
    (Json.obj [(("a").data, Json.num 1)]) (Json.obj [(("b").data, Json.num 2)])
    rfl rfl rfl rfl (by decide) rfl rfl rfl rfl rfl rfl

end SignalFlux
